import Mathlib

/-!
# `thrust::detail::device::omp::reduce`

A shallow embedding of `thrust/detail/device/omp/reduce.inl` and the
properties of it that the specification states.

The file has two definitions of `reduce`, chosen by the preprocessor:

* lines 36-54, compiled when the OpenMP pragmas are stripped: a `while`
  loop over the iterator range (here `stripped.reduce`);
* lines 58-93, the OpenMP variant (here `reduce`).

Conventions of the embedding.

* The iterator range `[first, last)` is a `List α`; `thrust::distance` is
  its length and `first[i]` is the positional read `range[i]?`, which is
  checked: a read outside the range ends the run with `Failure.outOfBounds`.
* `binary_op` may throw: it is a function into `Except ε α`.  A total
  operator `f` is the special case `total f`.
* `omp_get_max_threads()` is the parameter `P`.
* The work-sharing construct `#pragma omp for` hands every iteration of the
  loop to one thread of the team.  The hand-out is the parameter
  `owner : Nat → Nat` (iteration index to thread number); a thread executes
  the iterations it owns in the order of the loop.  Threads only read the
  range and only touch their own slot of `thread_results`, so the parallel
  region is run one thread after the other, in thread order.
* The team of the parallel region has `num_threads` threads, as the
  `num_threads` clause asks, and never fewer than one: a parallel region is
  always run by at least the thread that meets it, thread 0.  The code has no
  guard for `N == 0`, so with an empty range thread 0 runs the body on an
  empty `thread_results`.
* Every run carries a log of what it did (`Event`), so that statements about
  how often and on which operands `binary_op` was called can be made.
* An exception of `binary_op` thrown in sequential code (the `while` loop,
  the final loop of line 90) ends the run at the call that threw and reaches
  the caller of `reduce` (`Failure.thrown`).  Thrown inside the parallel
  region (line 83) it ends the loop of the thread that threw, but the region
  has no `try`/`catch`, so it cannot leave the region: the program is
  terminated and `reduce` does not return (`Failure.terminated`).  The other
  threads of the team are not stopped by it; they run their share.
* `int num_threads = std::min<difference_type>(omp_get_max_threads(), N)`
  never exceeds `omp_get_max_threads()`, itself an `int`, so the narrowing
  conversion loses nothing and natural numbers are used throughout.
-/

namespace thrust.detail.device.omp

/-! ## Runs: a result or a failure, with a log -/

/-- Why a run ends without a value. -/
inductive Failure (ε : Type) where
  /-- `binary_op` threw `e`. -/
  | thrown (e : ε)
  /-- `binary_op` threw inside the parallel region: the exception cannot leave
  the region, the program is terminated and nothing is returned. -/
  | terminated
  /-- A positional access at index `i` lay outside its sequence. -/
  | outOfBounds (i : Nat)
  deriving DecidableEq, Repr

/-- What a run did, in the order it did it. -/
inductive Event (α : Type) where
  /-- Slot `slot` of `thread_results` was constructed from `first[slot]` (line 72). -/
  | seed (slot : Nat) (x : α)
  /-- Thread `thread` called `binary_op(thread_sum, first[src])` (line 83). -/
  | fold (thread src : Nat) (acc x : α)
  /-- The final loop called `binary_op(total_sum, thread_results[slot])` (line 90). -/
  | join (slot : Nat) (acc x : α)
  /-- The sequential loop called `binary_op(result, *first)`, `first` being at
  offset `pos` (line 49). -/
  | step (pos : Nat) (acc x : α)
  deriving DecidableEq, Repr

/-- A run of a piece of code: the events it produced and how it ended. -/
structure Run (ε α β : Type) where
  log : List (Event α)
  out : Except (Failure ε) β

namespace Run

variable {ε α β γ : Type}

/-- Ends at once with the value `b`. -/
def ret (b : β) : Run ε α β := ⟨[], .ok b⟩

/-- Ends at once with the failure `e`. -/
def fail (e : Failure ε) : Run ε α β := ⟨[], .error e⟩

/-- Sequencing: `f` runs on the value of `r`; a failure of `r` ends the run. -/
def andThen (r : Run ε α β) (f : β → Run ε α γ) : Run ε α γ :=
  match r.out with
  | .error e => ⟨r.log, .error e⟩
  | .ok b => ⟨r.log ++ (f b).log, (f b).out⟩

/-- Records one event. -/
def emit (ev : Event α) : Run ε α Unit := ⟨[ev], .ok ()⟩

/-- Sequencing inside a parallel region: `r` is one thread of the team and `f`
the threads after it.  When `r` threw, the threads after it still run, from
the state `stay` that `r` left behind, and the run ends terminated: the
exception cannot leave the region. -/
def inRegion (r : Run ε α β) (stay : β) (f : β → Run ε α γ) : Run ε α γ :=
  match r.out with
  | .ok b => ⟨r.log ++ (f b).log, (f b).out⟩
  | .error (.thrown _) => ⟨r.log ++ (f stay).log, .error .terminated⟩
  | .error .terminated => ⟨r.log, .error .terminated⟩
  | .error (.outOfBounds i) => ⟨r.log, .error (.outOfBounds i)⟩

end Run

/-- A total operator seen as one that never throws. -/
def total (ε : Type) {α : Type} (f : α → α → α) : α → α → Except ε α :=
  fun a b => .ok (f a b)

variable {ε α : Type}

/-- The checked positional read `xs[i]`. -/
def readAt (xs : List α) (i : Nat) : Run ε α α :=
  match xs[i]? with
  | some x => Run.ret x
  | none => Run.fail (.outOfBounds i)

/-- The checked positional write `xs[i] = v`. -/
def writeAt (xs : List α) (i : Nat) (v : α) : Run ε α (List α) :=
  if i < xs.length then Run.ret (xs.set i v) else Run.fail (.outOfBounds i)

/-- One call `binary_op(acc, x)`, logged as `ev acc x`; an exception of
`binary_op` becomes `Failure.thrown`. -/
def call (binary_op : α → α → Except ε α) (ev : α → α → Event α) (acc x : α) :
    Run ε α α :=
  ⟨[ev acc x],
    match binary_op acc x with
    | .ok v => .ok v
    | .error e => .error (.thrown e)⟩

/-! ## The sequential variant (lines 36-54) -/

namespace stripped

/-- The loop `while (first != last) { result = binary_op(result, *first); first++; }`
of lines 47-51; the list is what is left of the range and `pos` the offset
of `first`. -/
def whileLoop (binary_op : α → α → Except ε α) : List α → Nat → α → Run ε α α
  | [], _, result => Run.ret result
  | x :: rest, pos, result =>
    (call binary_op (.step pos) result x).andThen fun result =>
    whileLoop binary_op rest (pos + 1) result

/-- `reduce` of lines 39-54: `result = init`, the loop, `return result`. -/
def reduce (binary_op : α → α → Except ε α) (range : List α) (init : α) : Run ε α α :=
  whileLoop binary_op range 0 init

end stripped

/-! ## The OpenMP variant (lines 58-93) -/

/-- Modelled from the spec: the range constructor of
`thrust::detail::raw_host_buffer` (`thrust/detail/raw_buffer.h`, not part of
the sources at hand).  The spec's "scoped temporary storage" holds one
accumulator per worker and "worker `i`'s partial starts as `range[i]`
itself": the buffer built from `[first, first + n)` holds copies of
`first[k], ..., first[k + n - 1]`, read one after the other (`k` is the
offset reached so far). -/
def raw_host_buffer (first : List α) : Nat → Nat → Run ε α (List α)
  | 0, _ => Run.ret []
  | n + 1, k =>
    (readAt first k).andThen fun x =>
    (Run.emit (.seed k x)).andThen fun _ =>
    (raw_host_buffer first n (k + 1)).andThen fun rest =>
    Run.ret (x :: rest)

/-- The share of thread `thread_id` in the work-shared loop of lines 81-83,
`for (i = num_threads; i < N; i++) thread_sum = binary_op(thread_sum, first[i]);`.
The list holds the iterations of the loop still to come; the thread executes
those that `owner` hands to it and skips the others. -/
def ompFor (binary_op : α → α → Except ε α) (first : List α) (owner : Nat → Nat)
    (thread_id : Nat) : List Nat → α → Run ε α α
  | [], thread_sum => Run.ret thread_sum
  | i :: rest, thread_sum =>
    if owner i = thread_id then
      (readAt first i).andThen fun x =>
      (call binary_op (.fold thread_id i) thread_sum x).andThen fun thread_sum =>
      ompFor binary_op first owner thread_id rest thread_sum
    else
      ompFor binary_op first owner thread_id rest thread_sum

/-- The iterations `num_threads, ..., N - 1` of the work-shared loop. -/
def iterations (num_threads N : Nat) : List Nat :=
  List.range' num_threads (N - num_threads)

/-- The body of the parallel region (lines 75-86) as thread `thread_id` runs
it: load its slot, fold its share of the loop, store the slot. -/
def threadBody (binary_op : α → α → Except ε α) (first : List α) (owner : Nat → Nat)
    (num_threads N thread_id : Nat) (thread_results : List α) : Run ε α (List α) :=
  (readAt thread_results thread_id).andThen fun thread_sum =>
  (ompFor binary_op first owner thread_id (iterations num_threads N) thread_sum).andThen
    fun thread_sum =>
  writeAt thread_results thread_id thread_sum

/-- The parallel region `#pragma omp parallel num_threads(num_threads)` of
lines 74-86: every thread of the team (the list) runs the body.  A thread that
throws has not stored its slot (line 85 is not reached). -/
def parallelRegion (binary_op : α → α → Except ε α) (first : List α) (owner : Nat → Nat)
    (num_threads N : Nat) : List Nat → List α → Run ε α (List α)
  | [], thread_results => Run.ret thread_results
  | thread_id :: team, thread_results =>
    (threadBody binary_op first owner num_threads N thread_id thread_results).inRegion
      thread_results fun thread_results =>
    parallelRegion binary_op first owner num_threads N team thread_results

/-- The final loop of lines 89-90,
`for (i = 0; i < num_threads; ++i) total_sum = binary_op(total_sum, thread_results[i]);`.
The list holds the iterations still to come. -/
def totalLoop (binary_op : α → α → Except ε α) (thread_results : List α) :
    List Nat → α → Run ε α α
  | [], total_sum => Run.ret total_sum
  | i :: rest, total_sum =>
    (readAt thread_results i).andThen fun x =>
    (call binary_op (.join i) total_sum x).andThen fun total_sum =>
    totalLoop binary_op thread_results rest total_sum

/-- The thread numbers of the team of `#pragma omp parallel num_threads(n)`:
`n` threads, and at least the thread that meets the region, thread 0. -/
def team (num_threads : Nat) : List Nat := List.range (max num_threads 1)

/-- Lines 68-86 of `reduce`: the buffer of per-thread results as the parallel
region leaves it. -/
def threadResults (P : Nat) (owner : Nat → Nat) (binary_op : α → α → Except ε α)
    (range : List α) : Run ε α (List α) :=
  let N := range.length
  let num_threads := min P N
  (raw_host_buffer range num_threads 0).andThen fun thread_results =>
  parallelRegion binary_op range owner num_threads N (team num_threads) thread_results

/-- `reduce` of lines 61-93, with `P` threads available and the work-shared
loop handed out by `owner`. -/
def reduce (P : Nat) (owner : Nat → Nat) (binary_op : α → α → Except ε α)
    (range : List α) (init : α) : Run ε α α :=
  let num_threads := min P range.length
  (threadResults P owner binary_op range).andThen fun thread_results =>
  totalLoop binary_op thread_results (List.range num_threads) init

/-! ## Vocabulary of the specification -/

/-- A work-sharing split: every iteration of `[W, N)` goes to one of the `W`
threads of the team. -/
def ValidSplit (owner : Nat → Nat) (W N : Nat) : Prop :=
  ∀ i, W ≤ i → i < N → owner i < W

/-- A static contiguous split of `[W, N)`, the kind of split the specification
names (the split itself is chosen by the OpenMP runtime, which is not part of
the sources; the statements about every split take `owner` as a parameter):
chunks of `⌈(N - W) / W⌉` consecutive iterations, the first chunk to thread 0,
the next to thread 1, and so on. -/
def staticOwner (W N : Nat) (i : Nat) : Nat :=
  (i - W) / ((N - W + W - 1) / W)

/-- The operands of every call of `binary_op` in a log, in order. -/
def applications : List (Event α) → List (α × α)
  | [] => []
  | .seed _ _ :: evs => applications evs
  | .fold _ _ acc x :: evs => (acc, x) :: applications evs
  | .join _ acc x :: evs => (acc, x) :: applications evs
  | .step _ acc x :: evs => (acc, x) :: applications evs

/-- The source indices whose elements went into the partial of thread `t`,
in order: its seed, then the elements it folded in. -/
def workerLog (t : Nat) : List (Event α) → List Nat
  | [] => []
  | .seed slot _ :: evs => if slot = t then slot :: workerLog t evs else workerLog t evs
  | .fold thread src _ _ :: evs =>
    if thread = t then src :: workerLog t evs else workerLog t evs
  | .join _ _ _ :: evs => workerLog t evs
  | .step _ _ _ :: evs => workerLog t evs

/-- The elements of `[W, N)` that the split hands to thread `t`, in
increasing index order. -/
def chunk (range : List α) (owner : Nat → Nat) (W t : Nat) : List α :=
  ((iterations W range.length).filter fun i => owner i = t).filterMap fun i => range[i]?

/-- The partial of every worker as the spec describes it: worker `t` starts
from `range[t]` and folds in its chunk. -/
def partials (f : α → α → α) (range : List α) (owner : Nat → Nat) (W : Nat) : List α :=
  (range.take W).mapIdx fun t seed => List.foldl f seed (chunk range owner W t)

/-- The seed events of a buffer built from the elements `xs`, the first of
which sits at offset `k`. -/
def seedEvents : List α → Nat → List (Event α)
  | [], _ => []
  | x :: xs, k => .seed k x :: seedEvents xs (k + 1)

/-- The block of every worker: its seed followed by its chunk. -/
def blocks (range : List α) (owner : Nat → Nat) (W : Nat) : List (List α) :=
  (range.take W).mapIdx fun t seed => seed :: chunk range owner W t

/-- The source indices in the order in which the partials take them in:
worker after worker, the seed index of a worker and then the iterations the
split hands to it. -/
def blockOrder (owner : Nat → Nat) (W N : Nat) : List Nat :=
  (List.range W).flatMap fun t => t :: (iterations W N).filter fun i => owner i = t

/-- What a piece of `reduce` guarantees, seen from worker `t`.  `target` is
the list of source indices the piece feeds to worker `t` when it runs to
completion, `Q` what holds of its value then. -/
structure Sound {β : Type} (binary_op : α → α → Except ε α) (t : Nat) (r : Run ε α β)
    (target : List Nat) (Q : β → Prop) : Prop where
  /-- The indices fed so far are among those of `target`, in its order. -/
  sofar : List.Sublist (workerLog t r.log) target
  /-- A run that ends with a value has fed all of `target`. -/
  finished : ∀ b, r.out = .ok b → workerLog t r.log = target ∧ Q b
  /-- No positional access leaves its sequence. -/
  inBounds : ∀ i, r.out ≠ .error (.outOfBounds i)
  /-- A call of `binary_op` that throws leaves the run without a value: it
  ends with what the call threw, or terminated. -/
  honest : ∀ p ∈ applications r.log, ∀ e, binary_op p.1 p.2 = .error e →
    r.out = .error (.thrown e) ∨ r.out = .error .terminated
  /-- A run only ends with `thrown e` when a call of `binary_op` threw `e`. -/
  thrown : ∀ e, r.out = .error (.thrown e) →
    ∃ p ∈ applications r.log, binary_op p.1 p.2 = .error e
  /-- A run only ends terminated when a call of `binary_op` threw. -/
  terminated : r.out = .error .terminated →
    ∃ p ∈ applications r.log, ∃ e, binary_op p.1 p.2 = .error e

/-- A combine for the failure scenario: it adds, and throws its right operand
when that operand is `bad`. -/
def failOn (bad : Nat) (acc x : Nat) : Except Nat Nat :=
  if x = bad then .error x else .ok (acc + x)

/-! ## Basic facts about runs -/

namespace Run

variable {β γ : Type}

theorem andThen_of_ok {r : Run ε α β} {b : β} (h : r.out = .ok b) (f : β → Run ε α γ) :
    r.andThen f = ⟨r.log ++ (f b).log, (f b).out⟩ := by
  simp only [andThen, h]

theorem andThen_of_error {r : Run ε α β} {e : Failure ε} (h : r.out = .error e)
    (f : β → Run ε α γ) : r.andThen f = ⟨r.log, .error e⟩ := by
  simp only [andThen, h]

theorem inRegion_of_ok {r : Run ε α β} {b : β} (h : r.out = .ok b) (stay : β)
    (f : β → Run ε α γ) : r.inRegion stay f = ⟨r.log ++ (f b).log, (f b).out⟩ := by
  simp only [inRegion, h]

theorem inRegion_of_thrown {r : Run ε α β} {e : ε} (h : r.out = .error (.thrown e))
    (stay : β) (f : β → Run ε α γ) :
    r.inRegion stay f = ⟨r.log ++ (f stay).log, .error .terminated⟩ := by
  simp only [inRegion, h]

theorem inRegion_of_terminated {r : Run ε α β} (h : r.out = .error .terminated)
    (stay : β) (f : β → Run ε α γ) : r.inRegion stay f = ⟨r.log, .error .terminated⟩ := by
  simp only [inRegion, h]

theorem inRegion_of_outOfBounds {r : Run ε α β} {i : Nat}
    (h : r.out = .error (.outOfBounds i)) (stay : β) (f : β → Run ε α γ) :
    r.inRegion stay f = ⟨r.log, .error (.outOfBounds i)⟩ := by
  simp only [inRegion, h]

@[simp]
theorem ret_andThen (b : β) (f : β → Run ε α γ) : (ret b).andThen f = f b := by
  simp [andThen, ret]

@[simp]
theorem emit_andThen (ev : Event α) (f : Unit → Run ε α γ) :
    (emit ev).andThen f = ⟨ev :: (f ()).log, (f ()).out⟩ := by
  simp [andThen, emit]

@[simp]
theorem ret_log (b : β) : (ret b : Run ε α β).log = [] := rfl

@[simp]
theorem ret_out (b : β) : (ret b : Run ε α β).out = .ok b := rfl

end Run

@[simp]
theorem call_total (f : α → α → α) (ev : α → α → Event α) (acc x : α) :
    call (total ε f) ev acc x = ⟨[ev acc x], .ok (f acc x)⟩ := rfl

theorem team_of_pos {n : Nat} (h : 0 < n) : team n = List.range n := by
  rw [team, Nat.max_eq_left h]

theorem readAt_of_lt {xs : List α} {i : Nat} (h : i < xs.length) :
    (readAt xs i : Run ε α α) = Run.ret xs[i] := by
  simp [readAt, List.getElem?_eq_getElem h]

theorem writeAt_of_lt {xs : List α} {i : Nat} (h : i < xs.length) (v : α) :
    (writeAt xs i v : Run ε α (List α)) = Run.ret (xs.set i v) := by
  simp [writeAt, h]

/-! ## The sequential variant computes the left fold -/

section Value

variable (ε)

theorem stripped.whileLoop_total (f : α → α → α) (range : List α) (pos : Nat) (result : α) :
    (stripped.whileLoop (total ε f) range pos result).out
      = .ok (List.foldl f result range) := by
  induction range generalizing pos result with
  | nil => rfl
  | cons x rest ih =>
    simp only [stripped.whileLoop, call_total, List.foldl_cons]
    rw [Run.andThen_of_ok rfl]
    exact ih _ _

/-! ## The stages of the OpenMP variant, for a total operator -/

theorem raw_host_buffer_eq (first : List α) (n k : Nat) (h : k + n ≤ first.length) :
    (raw_host_buffer first n k : Run ε α (List α))
      = ⟨seedEvents ((first.drop k).take n) k, .ok ((first.drop k).take n)⟩ := by
  induction n generalizing k with
  | zero => simp [raw_host_buffer, seedEvents, Run.ret]
  | succ n ih =>
    have hk : k < first.length := by omega
    have ih' := ih (k + 1) (by omega)
    simp only [raw_host_buffer, readAt_of_lt hk, Run.ret_andThen, Run.emit_andThen]
    rw [Run.andThen_of_ok (by rw [ih']), ih', List.drop_eq_getElem_cons hk,
      List.take_succ_cons]
    simp only [Run.ret, seedEvents, List.append_nil]

theorem ompFor_total (f : α → α → α) (first : List α) (owner : Nat → Nat) (t : Nat)
    (is : List Nat) (h : ∀ i ∈ is, i < first.length) (s : α) :
    (ompFor (total ε f) first owner t is s).out
      = .ok (List.foldl f s
          ((is.filter fun i => owner i = t).filterMap fun i => first[i]?)) := by
  induction is generalizing s with
  | nil => rfl
  | cons i rest ih =>
    have hi : i < first.length := h i (List.mem_cons_self _ _)
    have hrest : ∀ j ∈ rest, j < first.length := fun j hj => h j (List.mem_cons_of_mem _ hj)
    by_cases ho : owner i = t
    · simp only [ompFor, ho, if_true, readAt_of_lt hi, Run.ret_andThen, call_total]
      rw [Run.andThen_of_ok rfl]
      simp [ih hrest, ho, List.getElem?_eq_getElem hi]
    · simp [ompFor, ho, ih hrest]

theorem mem_iterations {W N i : Nat} : i ∈ iterations W N ↔ W ≤ i ∧ i < N := by
  simp only [iterations, List.mem_range'_1]
  omega

theorem threadBody_total (f : α → α → α) (range : List α) (owner : Nat → Nat)
    (W t : Nat) (buf : List α) (ht : t < buf.length) :
    (threadBody (total ε f) range owner W range.length t buf).out
      = .ok (buf.set t (List.foldl f buf[t] (chunk range owner W t))) := by
  have h := ompFor_total ε f range owner t (iterations W range.length)
    (fun i hi => (mem_iterations.1 hi).2) buf[t]
  simp only [threadBody, readAt_of_lt ht, Run.ret_andThen]
  rw [Run.andThen_of_ok h, writeAt_of_lt ht]
  rfl

theorem parallelRegion_total (f : α → α → α) (range : List α) (owner : Nat → Nat)
    (W : Nat) (team : List Nat) (buf : List α)
    (hnd : team.Nodup) (hlt : ∀ t ∈ team, t < buf.length) :
    ∃ buf', (parallelRegion (total ε f) range owner W range.length team buf).out
        = .ok buf' ∧
      ∀ u, buf'[u]? = if u ∈ team
        then buf[u]?.map fun s => List.foldl f s (chunk range owner W u)
        else buf[u]? := by
  induction team generalizing buf with
  | nil => exact ⟨buf, rfl, fun u => by simp⟩
  | cons t team ih =>
    have ht : t < buf.length := hlt t (List.mem_cons_self _ _)
    have hbody := threadBody_total ε f range owner W t buf ht
    obtain ⟨buf', hout, hget⟩ := ih (buf.set t (List.foldl f buf[t] (chunk range owner W t)))
      (List.nodup_cons.1 hnd).2
      (fun u hu => by simpa using hlt u (List.mem_cons_of_mem _ hu))
    refine ⟨buf', ?_, fun u => ?_⟩
    · simp only [parallelRegion]
      rw [Run.inRegion_of_ok hbody]
      exact hout
    · have hnot : t ∉ team := (List.nodup_cons.1 hnd).1
      rw [hget u]
      by_cases hu : u = t
      · subst hu
        simp [hnot, List.getElem?_set, ht, List.getElem?_eq_getElem ht]
      · have hu' : t ≠ u := fun h => hu h.symm
        by_cases hmem : u ∈ team
        · simp [hmem, List.getElem?_set, hu']
        · simp [hmem, hu, List.getElem?_set, hu']

theorem threadResults_total (P : Nat) (owner : Nat → Nat) (f : α → α → α) (range : List α)
    (hW : 0 < min P range.length) :
    (threadResults P owner (total ε f) range).out
      = .ok (partials f range owner (min P range.length)) := by
  have hbuf := raw_host_buffer_eq ε range (min P range.length) 0
    (by simp)
  obtain ⟨buf', hout, hget⟩ := parallelRegion_total ε f range owner
    (min P range.length) (List.range (min P range.length)) (range.take (min P range.length))
    (List.nodup_range _) (fun t ht => by
      simp only [List.mem_range] at ht
      simp only [List.length_take]
      omega)
  simp only [threadResults, team_of_pos hW]
  rw [Run.andThen_of_ok (by rw [hbuf]), hbuf]
  simp only [List.drop_zero]
  rw [hout]
  congr 1
  apply List.ext_getElem?
  intro u
  rw [hget u, partials, List.getElem?_mapIdx]
  by_cases hu : u < min P range.length
  · simp [hu]
  · have : (List.take (min P range.length) range)[u]? = none := by
      rw [List.getElem?_eq_none_iff, List.length_take]
      omega
    simp [hu, this]

theorem totalLoop_total (f : α → α → α) (buf : List α) (n k : Nat)
    (h : k + n ≤ buf.length) (s : α) :
    (totalLoop (total ε f) buf (List.range' k n) s).out
      = .ok (List.foldl f s ((buf.drop k).take n)) := by
  induction n generalizing k s with
  | zero => rfl
  | succ n ih =>
    have hk : k < buf.length := by omega
    simp only [List.range'_succ, totalLoop, readAt_of_lt hk, Run.ret_andThen, call_total]
    rw [Run.andThen_of_ok rfl]
    simp only
    rw [ih (k + 1) (by omega), List.drop_eq_getElem_cons hk, List.take_succ_cons,
      List.foldl_cons]

theorem partials_length (f : α → α → α) (range : List α) (owner : Nat → Nat) (W : Nat) :
    (partials f range owner W).length = min W range.length := by
  simp [partials]

/-- The value of the OpenMP variant for a total operator: the left fold,
from `init`, of the workers' partials in worker order. -/
theorem reduce_total_out (P : Nat) (owner : Nat → Nat) (f : α → α → α) (range : List α)
    (init : α) (hW : 0 < min P range.length) :
    (reduce P owner (total ε f) range init).out
      = .ok (List.foldl f init (partials f range owner (min P range.length))) := by
  have hres := threadResults_total ε P owner f range hW
  have hloop := totalLoop_total ε f (partials f range owner (min P range.length))
    (min P range.length) 0 (by simp [partials_length]) init
  simp only [reduce]
  rw [Run.andThen_of_ok hres, List.range_eq_range']
  simp only
  rw [hloop]
  congr 2
  simp only [List.drop_zero]
  exact List.take_of_length_le (by simp [partials_length])

end Value

/-! ## The invariant of the stages, for an operator that may throw -/

section Invariant

variable {β γ : Type}

theorem applications_append (l₁ l₂ : List (Event α)) :
    applications (l₁ ++ l₂) = applications l₁ ++ applications l₂ := by
  induction l₁ with
  | nil => rfl
  | cons ev l₁ ih => cases ev <;> simp [applications, ih]

theorem workerLog_append (t : Nat) (l₁ l₂ : List (Event α)) :
    workerLog t (l₁ ++ l₂) = workerLog t l₁ ++ workerLog t l₂ := by
  induction l₁ with
  | nil => rfl
  | cons ev l₁ ih =>
    cases ev <;> simp only [List.cons_append, workerLog] <;> (try split) <;> simp [ih]

theorem Sound.of_value (binary_op : α → α → Except ε α) (t : Nat) {log : List (Event α)}
    {b : β} {l : List Nat} {Q : β → Prop} (happ : applications log = [])
    (hlog : workerLog t log = l) (hQ : Q b) :
    Sound binary_op t (⟨log, .ok b⟩ : Run ε α β) l Q where
  sofar := hlog ▸ List.Sublist.refl _
  finished := fun c hc => by
    simp only [Except.ok.injEq] at hc
    subst hc
    exact ⟨hlog, hQ⟩
  inBounds := fun i hi => by simp at hi
  honest := fun p hp => by simp [happ] at hp
  thrown := fun e he => by simp at he
  terminated := fun he => by simp at he

theorem Sound.of_ret (binary_op : α → α → Except ε α) (t : Nat) (b : β) {Q : β → Prop}
    (h : Q b) : Sound binary_op t (Run.ret b : Run ε α β) [] Q :=
  Sound.of_value binary_op t rfl rfl h

/-- A piece that ended in a failure, followed by nothing. -/
theorem Sound.of_error {binary_op : α → α → Except ε α} {t : Nat} {r : Run ε α β}
    {l₁ : List Nat} {Q : β → Prop} (hr : Sound binary_op t r l₁ Q) {e : Failure ε}
    (hout : r.out = .error e) (l₂ : List Nat) (R : γ → Prop) :
    Sound binary_op t (⟨r.log, .error e⟩ : Run ε α γ) (l₁ ++ l₂) R where
  sofar := hr.sofar.trans (List.sublist_append_left _ _)
  finished := fun c hc => by simp at hc
  inBounds := fun i hi => hr.inBounds i (by rw [hout, Except.error.inj hi])
  honest := fun p hp e' he' => by
    rcases hr.honest p hp e' he' with h | h
    · rw [hout] at h
      exact Or.inl (by rw [Except.error.inj h])
    · rw [hout] at h
      exact Or.inr (by rw [Except.error.inj h])
  thrown := fun e' he' => hr.thrown e' (by rw [hout, Except.error.inj he'])
  terminated := fun he' => hr.terminated (by rw [hout, Except.error.inj he'])

/-- A piece that ended with a value, followed by another piece. -/
theorem Sound.of_ok {binary_op : α → α → Except ε α} {t : Nat} {r : Run ε α β}
    {s : Run ε α γ} {l₁ l₂ : List Nat} {Q : β → Prop} {R : γ → Prop}
    (hr : Sound binary_op t r l₁ Q) {b : β} (hout : r.out = .ok b)
    (hs : Sound binary_op t s l₂ R) :
    Sound binary_op t (⟨r.log ++ s.log, s.out⟩ : Run ε α γ) (l₁ ++ l₂) R := by
  have hlog := (hr.finished b hout).1
  refine
    { sofar := by
        rw [workerLog_append, hlog]
        exact hs.sofar.append_left _
      finished := fun c hc => ?_
      inBounds := hs.inBounds
      honest := fun p hp e he => ?_
      thrown := fun e he => ?_
      terminated := fun he => ?_ }
  · obtain ⟨h₁, h₂⟩ := hs.finished c hc
    exact ⟨by rw [workerLog_append, hlog, h₁], h₂⟩
  · rw [applications_append, List.mem_append] at hp
    rcases hp with hp | hp
    · rcases hr.honest p hp e he with h | h <;> rw [hout] at h <;> cases h
    · exact hs.honest p hp e he
  · obtain ⟨p, hp, hpe⟩ := hs.thrown e he
    exact ⟨p, by rw [applications_append, List.mem_append]; exact Or.inr hp, hpe⟩
  · obtain ⟨p, hp, hpe⟩ := hs.terminated he
    exact ⟨p, by rw [applications_append, List.mem_append]; exact Or.inr hp, hpe⟩

theorem Sound.bind {binary_op : α → α → Except ε α} {t : Nat} {r : Run ε α β}
    {f : β → Run ε α γ} {l₁ l₂ : List Nat} {Q : β → Prop} {R : γ → Prop}
    (hr : Sound binary_op t r l₁ Q) (hf : ∀ b, Q b → Sound binary_op t (f b) l₂ R) :
    Sound binary_op t (r.andThen f) (l₁ ++ l₂) R := by
  cases hout : r.out with
  | error e =>
    rw [Run.andThen_of_error hout]
    exact hr.of_error hout l₂ R
  | ok b =>
    rw [Run.andThen_of_ok hout]
    exact hr.of_ok hout (hf b (hr.finished b hout).2)

/-- One thread of the parallel region, followed by the threads after it. -/
theorem Sound.inRegion {binary_op : α → α → Except ε α} {t : Nat} {r : Run ε α β}
    {stay : β} {f : β → Run ε α γ} {l₁ l₂ : List Nat} {Q : β → Prop} {R : γ → Prop}
    (hr : Sound binary_op t r l₁ Q) (hf : ∀ b, Q b → Sound binary_op t (f b) l₂ R)
    (hstay : Sound binary_op t (f stay) l₂ R) :
    Sound binary_op t (r.inRegion stay f) (l₁ ++ l₂) R := by
  cases hout : r.out with
  | ok b =>
    rw [Run.inRegion_of_ok hout]
    exact hr.of_ok hout (hf b (hr.finished b hout).2)
  | error e =>
    cases e with
    | thrown e =>
      rw [Run.inRegion_of_thrown hout]
      obtain ⟨p, hp, hpe⟩ := hr.thrown e hout
      exact
        { sofar := by
            rw [workerLog_append]
            exact hr.sofar.append hstay.sofar
          finished := fun c hc => by simp at hc
          inBounds := fun i hi => by simp at hi
          honest := fun _ _ _ _ => Or.inr rfl
          thrown := fun e' he' => by simp at he'
          terminated := fun _ =>
            ⟨p, by rw [applications_append, List.mem_append]; exact Or.inl hp, e, hpe⟩ }
    | terminated =>
      rw [Run.inRegion_of_terminated hout]
      exact hr.of_error hout l₂ R
    | outOfBounds i =>
      rw [Run.inRegion_of_outOfBounds hout]
      exact hr.of_error hout l₂ R

theorem Sound.cast {binary_op : α → α → Except ε α} {t : Nat} {r : Run ε α β}
    {l l' : List Nat} {Q Q' : β → Prop} (hs : Sound binary_op t r l Q) (hl : l = l')
    (hQ : ∀ b, Q b → Q' b) : Sound binary_op t r l' Q' := by
  subst hl
  exact
    { sofar := hs.sofar
      finished := fun b hb => ⟨(hs.finished b hb).1, hQ b (hs.finished b hb).2⟩
      inBounds := hs.inBounds
      honest := hs.honest
      thrown := hs.thrown
      terminated := hs.terminated }

theorem Sound.of_readAt (binary_op : α → α → Except ε α) (t : Nat) {xs : List α} {i : Nat}
    (h : i < xs.length) : Sound binary_op t (readAt xs i : Run ε α α) [] fun _ => True := by
  rw [readAt_of_lt h]
  exact Sound.of_ret binary_op t _ trivial

theorem Sound.of_writeAt (binary_op : α → α → Except ε α) (t : Nat) {xs : List α} {i : Nat}
    (h : i < xs.length) (v : α) :
    Sound binary_op t (writeAt xs i v : Run ε α (List α)) [] fun buf =>
      buf.length = xs.length := by
  rw [writeAt_of_lt h]
  exact Sound.of_ret binary_op t _ (List.length_set _ _ _)

theorem Sound.of_call (binary_op : α → α → Except ε α) (t : Nat) (ev : α → α → Event α)
    (acc x : α) (hev : applications [ev acc x] = [(acc, x)]) :
    Sound binary_op t (call binary_op ev acc x) (workerLog t [ev acc x]) fun _ => True where
  sofar := List.Sublist.refl _
  finished := fun _ _ => ⟨rfl, trivial⟩
  inBounds := fun i hi => by
    cases h : binary_op acc x <;> simp [call, h] at hi
  honest := fun p hp e he => by
    have hp' : p ∈ applications [ev acc x] := hp
    rw [hev, List.mem_singleton] at hp'
    subst hp'
    exact Or.inl (by simp [call, he])
  thrown := fun e he => by
    refine ⟨(acc, x), ?_, ?_⟩
    · show (acc, x) ∈ applications [ev acc x]
      rw [hev]
      exact List.mem_singleton.2 rfl
    · cases h : binary_op acc x with
      | ok v => simp [call, h] at he
      | error e' =>
        simp only [call, h, Except.error.injEq, Failure.thrown.injEq] at he
        rw [he]
  terminated := fun he => by
    cases h : binary_op acc x <;> simp [call, h] at he

theorem applications_seedEvents (xs : List α) (k : Nat) :
    applications (seedEvents xs k) = [] := by
  induction xs generalizing k with
  | nil => rfl
  | cons x xs ih => simp [seedEvents, applications, ih]

theorem workerLog_seedEvents (t : Nat) (xs : List α) (k : Nat) :
    workerLog t (seedEvents xs k) = if k ≤ t ∧ t < k + xs.length then [t] else [] := by
  induction xs generalizing k with
  | nil => simp [seedEvents, workerLog]
  | cons x xs ih =>
    simp only [seedEvents, workerLog, ih, List.length_cons]
    by_cases hk : k = t
    · subst hk
      simp
    · by_cases h : k + 1 ≤ t ∧ t < k + 1 + xs.length
      · rw [if_neg hk, if_pos h, if_pos ⟨by omega, by omega⟩]
      · rw [if_neg hk, if_neg h, if_neg (by omega)]

theorem raw_host_buffer_sound (binary_op : α → α → Except ε α) (t : Nat) (first : List α)
    (n k : Nat) (h : k + n ≤ first.length) :
    Sound binary_op t (raw_host_buffer first n k : Run ε α (List α))
      (if k ≤ t ∧ t < k + n then [t] else []) fun buf => buf.length = n := by
  have hlen : ((first.drop k).take n).length = n := by
    rw [List.length_take, List.length_drop]
    omega
  rw [raw_host_buffer_eq ε first n k h]
  exact Sound.of_value binary_op t (applications_seedEvents _ _)
    (by simp only [workerLog_seedEvents, hlen]) hlen

theorem ompFor_sound (binary_op : α → α → Except ε α) (t : Nat) (first : List α)
    (owner : Nat → Nat) (u : Nat) (is : List Nat) (h : ∀ i ∈ is, i < first.length) (s : α) :
    Sound binary_op t (ompFor binary_op first owner u is s)
      (if u = t then is.filter fun i => owner i = u else []) fun _ => True := by
  induction is generalizing s with
  | nil => exact (Sound.of_ret binary_op t s trivial).cast (by simp) fun _ h => h
  | cons i rest ih =>
    have hi : i < first.length := h i (List.mem_cons_self _ _)
    have hrest : ∀ j ∈ rest, j < first.length := fun j hj => h j (List.mem_cons_of_mem _ hj)
    by_cases ho : owner i = u
    · have key : ∀ x : α, Sound binary_op t
          ((call binary_op (.fold u i) s x).andThen fun thread_sum =>
            ompFor binary_op first owner u rest thread_sum)
          (if u = t then i :: rest.filter fun j => owner j = u else []) fun _ => True := by
        intro x
        refine ((Sound.of_call binary_op t (.fold u i) s x rfl).bind
          fun s' _ => ih hrest s').cast ?_ fun _ h => h
        by_cases hu : u = t <;> simp [workerLog, hu]
      simp only [ompFor, ho, if_true]
      refine ((Sound.of_readAt binary_op t hi).bind fun x _ => key x).cast ?_ fun _ h => h
      simp [ho]
    · simp only [ompFor, ho, if_false]
      refine (ih hrest s).cast ?_ fun _ h => h
      simp [ho]

theorem threadBody_sound (binary_op : α → α → Except ε α) (t : Nat) (first : List α)
    (owner : Nat → Nat) (W u : Nat) (buf : List α) (hu : u < buf.length) :
    Sound binary_op t (threadBody binary_op first owner W first.length u buf)
      (if u = t then (iterations W first.length).filter fun i => owner i = u else [])
      fun buf' => buf'.length = buf.length := by
  refine ((Sound.of_readAt binary_op t hu).bind fun s _ =>
    (ompFor_sound binary_op t first owner u (iterations W first.length)
      (fun i hi => (mem_iterations.1 hi).2) s).bind fun s' _ =>
    Sound.of_writeAt binary_op t hu s').cast ?_ fun _ h => h
  simp

theorem parallelRegion_sound (binary_op : α → α → Except ε α) (t : Nat) (first : List α)
    (owner : Nat → Nat) (W : Nat) (team : List Nat) (buf : List α)
    (hlt : ∀ u ∈ team, u < buf.length) :
    Sound binary_op t (parallelRegion binary_op first owner W first.length team buf)
      (team.flatMap fun u =>
        if u = t then (iterations W first.length).filter fun i => owner i = u else [])
      fun buf' => buf'.length = buf.length := by
  induction team generalizing buf with
  | nil => exact Sound.of_ret binary_op t buf rfl
  | cons u team ih =>
    refine ((threadBody_sound binary_op t first owner W u buf
      (hlt u (List.mem_cons_self _ _))).inRegion (fun buf' hlen =>
      (ih buf' fun v hv => hlen ▸ hlt v (List.mem_cons_of_mem _ hv)).cast rfl
        fun _ h => h.trans hlen)
      (ih buf fun v hv => hlt v (List.mem_cons_of_mem _ hv))).cast ?_ fun _ h => h
    simp

theorem totalLoop_sound (binary_op : α → α → Except ε α) (t : Nat) (buf : List α)
    (is : List Nat) (h : ∀ i ∈ is, i < buf.length) (s : α) :
    Sound binary_op t (totalLoop binary_op buf is s) [] fun _ => True := by
  induction is generalizing s with
  | nil => exact Sound.of_ret binary_op t s trivial
  | cons i rest ih =>
    exact (Sound.of_readAt binary_op t (h i (List.mem_cons_self _ _))).bind fun x _ =>
      ((Sound.of_call binary_op t (.join i) s x rfl).bind fun s' _ =>
        ih (fun j hj => h j (List.mem_cons_of_mem _ hj)) s').cast rfl fun _ h => h

theorem stripped.whileLoop_sound (binary_op : α → α → Except ε α) (t : Nat)
    (range : List α) (pos : Nat) (result : α) :
    Sound binary_op t (stripped.whileLoop binary_op range pos result) [] fun _ => True := by
  induction range generalizing pos result with
  | nil => exact Sound.of_ret binary_op t result trivial
  | cons x rest ih =>
    exact (Sound.of_call binary_op t (.step pos) result x rfl).bind fun r _ => ih (pos + 1) r

theorem flatMap_range_ite (W t : Nat) (X : Nat → List Nat) :
    ((List.range W).flatMap fun u => if u = t then X u else []) =
      if t < W then X t else [] := by
  induction W with
  | zero => simp
  | succ W ih =>
    rw [List.range_succ, List.flatMap_append, ih, List.flatMap_singleton]
    by_cases h₁ : t < W
    · simp [h₁, Nat.ne_of_gt h₁, Nat.lt_succ_of_lt h₁]
    · by_cases h₂ : W = t
      · subst h₂
        simp
      · have h₃ : ¬ t < W + 1 := by omega
        simp [h₁, h₂, h₃]

theorem threadResults_sound (binary_op : α → α → Except ε α) (t P : Nat)
    (owner : Nat → Nat) (range : List α) (hW : 0 < min P range.length) :
    Sound binary_op t (threadResults P owner binary_op range)
      (if t < min P range.length then
        t :: (iterations (min P range.length) range.length).filter fun i => owner i = t
      else [])
      fun buf => buf.length = min P range.length := by
  rw [threadResults, team_of_pos hW]
  refine ((raw_host_buffer_sound binary_op t range (min P range.length) 0
    (by simp)).bind fun buf hlen =>
    (parallelRegion_sound binary_op t range owner (min P range.length)
      (List.range (min P range.length)) buf
      (fun u hu => by rw [hlen]; exact List.mem_range.1 hu)).cast rfl
        fun _ h => h.trans hlen).cast ?_ fun _ h => h
  rw [flatMap_range_ite]
  by_cases h : t < min P range.length <;> simp [h]

theorem reduce_sound (binary_op : α → α → Except ε α) (t P : Nat)
    (owner : Nat → Nat) (range : List α) (init : α) (hW : 0 < min P range.length) :
    Sound binary_op t (reduce P owner binary_op range init)
      (if t < min P range.length then
        t :: (iterations (min P range.length) range.length).filter fun i => owner i = t
      else [])
      fun _ => True :=
  ((threadResults_sound binary_op t P owner range hW).bind fun buf hlen =>
    totalLoop_sound binary_op t buf (List.range (min P range.length))
      (fun i hi => by rw [hlen]; exact List.mem_range.1 hi) init).cast
    (List.append_nil _) fun _ h => h

end Invariant

/-! ## The order in which the partials take the elements in -/

section Order

theorem mapIdx_take {β : Type} (g : Nat → α → β) (range : List α) (W : Nat) :
    (range.take W).mapIdx g = (List.range W).filterMap fun t => range[t]?.map (g t) := by
  induction W with
  | zero => simp
  | succ W ih =>
    rw [List.take_succ, List.mapIdx_append, ih, List.range_succ, List.filterMap_append]
    congr 1
    cases h : range[W]? with
    | none => simp [h]
    | some x =>
      have hW : W < range.length := by
        by_contra hc
        rw [List.getElem?_eq_none_iff.2 (by omega)] at h
        cases h
      have hlen : (range.take W).length = W := by
        rw [List.length_take]
        omega
      simp [h, hlen]

theorem filterMap_range_getElem? (l : List α) :
    ((List.range l.length).filterMap fun i => l[i]?) = l := by
  have h := mapIdx_take (fun _ x => x) l l.length
  rw [List.take_length] at h
  have hid : (l.mapIdx fun _ x => x) = l := by
    apply List.ext_getElem?
    intro i
    simp
  rw [hid] at h
  simpa using h.symm

theorem foldl_seeded (f : α → α → α) (hassoc : ∀ a b c, f (f a b) c = f a (f b c))
    (sd : Nat → Option α) (ch : Nat → List α) (L : List Nat) (a : α) :
    List.foldl f a (L.filterMap fun t => (sd t).map fun s => List.foldl f s (ch t)) =
      List.foldl f a (L.filterMap fun t => (sd t).map fun s => s :: ch t).flatten := by
  have hfold : ∀ (c : List α) (a s : α), f a (List.foldl f s c) = List.foldl f (f a s) c := by
    intro c
    induction c with
    | nil => intro a s; rfl
    | cons x c ih => intro a s; rw [List.foldl_cons, List.foldl_cons, ih, hassoc]
  induction L generalizing a with
  | nil => rfl
  | cons t L ih =>
    cases h : sd t with
    | none => simp only [List.filterMap_cons, h, Option.map_none']; exact ih a
    | some s =>
      simp only [List.filterMap_cons, h, Option.map_some', List.foldl_cons, List.flatten_cons,
        List.foldl_append]
      rw [ih, hfold]

theorem flatten_blocks (range : List α) (owner : Nat → Nat) (W : Nat)
    (hW : W ≤ range.length) :
    (blocks range owner W).flatten =
      (blockOrder owner W range.length).filterMap fun i => range[i]? := by
  have key : ∀ L : List Nat, (∀ t ∈ L, t < range.length) →
      (L.filterMap fun t => range[t]?.map fun s => s :: chunk range owner W t).flatten =
        L.flatMap fun t =>
          (t :: (iterations W range.length).filter fun i => owner i = t).filterMap
            fun i => range[i]? := by
    intro L
    induction L with
    | nil => intro _; rfl
    | cons t L ih =>
      intro hL
      have ht : t < range.length := hL t (List.mem_cons_self _ _)
      have h₁ : (List.filterMap
            (fun t => range[t]?.map fun s => s :: chunk range owner W t) (t :: L)) =
          (range[t] :: chunk range owner W t) :: List.filterMap
            (fun t => range[t]?.map fun s => s :: chunk range owner W t) L := by
        rw [List.filterMap_cons]
        simp only [List.getElem?_eq_getElem ht, Option.map_some']
      have h₂ : ((t :: (iterations W range.length).filter fun i => owner i = t).filterMap
            fun i => range[i]?) = range[t] :: chunk range owner W t := by
        rw [List.filterMap_cons]
        simp only [List.getElem?_eq_getElem ht, chunk]
      rw [h₁, List.flatten_cons, List.flatMap_cons, h₂,
        ih fun u hu => hL u (List.mem_cons_of_mem _ hu)]
  rw [blocks, mapIdx_take, blockOrder, List.filterMap_flatMap]
  exact key _ fun t ht => Nat.lt_of_lt_of_le (List.mem_range.1 ht) hW

theorem filter_lt_succ_perm (owner : Nat → Nat) (l : List Nat) (W : Nat) :
    List.Perm ((l.filter fun i => owner i < W) ++ l.filter fun i => owner i = W)
      (l.filter fun i => owner i < W + 1) := by
  induction l with
  | nil => exact List.Perm.refl _
  | cons i l ih =>
    by_cases h₁ : owner i < W
    · rw [List.filter_cons_of_pos (by simpa using h₁),
        List.filter_cons_of_neg (by simp; omega),
        List.filter_cons_of_pos (by simp; omega)]
      exact ih.cons i
    · by_cases h₂ : owner i = W
      · rw [List.filter_cons_of_neg (by simpa using h₁),
          List.filter_cons_of_pos (by simpa using h₂),
          List.filter_cons_of_pos (by simp; omega)]
        exact List.perm_middle.trans (ih.cons i)
      · rw [List.filter_cons_of_neg (by simpa using h₁),
          List.filter_cons_of_neg (by simpa using h₂),
          List.filter_cons_of_neg (by simp; omega)]
        exact ih

theorem flatMap_filter_perm (owner : Nat → Nat) (l : List Nat) (W : Nat) :
    List.Perm ((List.range W).flatMap fun t => l.filter fun i => owner i = t)
      (l.filter fun i => owner i < W) := by
  induction W with
  | zero => simp
  | succ W ih =>
    rw [List.range_succ, List.flatMap_append, List.flatMap_singleton]
    exact (ih.append_right _).trans (filter_lt_succ_perm owner l W)

theorem range_append_iterations {W N : Nat} (hW : W ≤ N) :
    List.range W ++ iterations W N = List.range N := by
  rw [iterations, List.range_eq_range', List.range_eq_range']
  have h := List.range'_append 0 W (N - W) 1
  simp only [Nat.one_mul, Nat.zero_add] at h
  rw [h]
  congr 1
  omega

theorem blockOrder_perm (owner : Nat → Nat) (W N : Nat) (hW : W ≤ N)
    (h : ValidSplit owner W N) : List.Perm (blockOrder owner W N) (List.range N) := by
  have hfilter : ((iterations W N).filter fun i => owner i < W) = iterations W N :=
    List.filter_eq_self.2 fun i hi => by
      simpa using h i (mem_iterations.1 hi).1 (mem_iterations.1 hi).2
  have h₁ := List.flatMap_append_perm (List.range W) (fun t => [t])
    fun t => (iterations W N).filter fun i => owner i = t
  have h₂ := flatMap_filter_perm owner (iterations W N) W
  rw [hfilter] at h₂
  rw [List.flatMap_singleton'] at h₁
  rw [← range_append_iterations hW]
  exact h₁.symm.trans (h₂.append_left _)

theorem blockOrder_of_le (owner : Nat → Nat) {W N : Nat} (h : N ≤ W) :
    blockOrder owner W N = List.range W := by
  have hnil : iterations W N = [] := by
    rw [iterations, Nat.sub_eq_zero_of_le h]
    rfl
  simp [blockOrder, hnil]

theorem blockOrder_one (owner : Nat → Nat) {N : Nat} (hN : 1 ≤ N)
    (h : ValidSplit owner 1 N) : blockOrder owner 1 N = List.range N := by
  have hfilter : ((iterations 1 N).filter fun i => owner i = 0) = iterations 1 N :=
    List.filter_eq_self.2 fun i hi => by
      have := h i (mem_iterations.1 hi).1 (mem_iterations.1 hi).2
      simp only [decide_eq_true_eq]
      omega
  have hone : List.range 1 = [0] := rfl
  rw [← range_append_iterations hN, blockOrder, hone, List.flatMap_singleton, hfilter]
  rfl

theorem staticOwner_valid (W N : Nat) (hW : 0 < W) : ValidSplit (staticOwner W N) W N := by
  intro i h₁ h₂
  have hmod := Nat.mod_lt (N - W + W - 1) hW
  have hdiv := Nat.div_add_mod (N - W + W - 1) W
  have hc : 0 < (N - W + W - 1) / W := by
    apply Nat.div_pos
    · omega
    · exact hW
  rw [staticOwner, Nat.div_lt_iff_lt_mul hc]
  omega

theorem staticOwner_valid_min (P N : Nat) (hP : 1 ≤ P) :
    ValidSplit (staticOwner (min P N) N) (min P N) N := by
  by_cases hN : N = 0
  · intro i _ h₂
    omega
  · exact staticOwner_valid _ _ (by omega)

end Order

/-! ## Short ranges -/

section Short

theorem partials_of_le (f : α → α → α) (range : List α) (owner : Nat → Nat) {P : Nat}
    (h : range.length ≤ P) : partials f range owner (min P range.length) = range := by
  have hnil : iterations range.length range.length = [] := by
    rw [iterations, Nat.sub_self]
    rfl
  rw [Nat.min_eq_right h]
  apply List.ext_getElem?
  intro i
  simp [partials, chunk, hnil]

theorem reduce_of_min_eq_zero {P : Nat} (owner : Nat → Nat)
    (binary_op : α → α → Except ε α) (range : List α) (init : α)
    (h : min P range.length = 0) :
    reduce P owner binary_op range init = ⟨[], .error (.outOfBounds 0)⟩ := by
  have hteam : team 0 = [0] := rfl
  simp [reduce, threadResults, h, hteam, raw_host_buffer, parallelRegion, threadBody, readAt,
    Run.andThen, Run.inRegion, Run.ret, Run.fail]

theorem reduce_singleton_eq {P : Nat} (hP : 1 ≤ P) (owner : Nat → Nat)
    (binary_op : α → α → Except ε α) (x init : α) :
    reduce P owner binary_op [x] init =
      ⟨[.seed 0 x, .join 0 init x], (call binary_op (.join 0) init x).out⟩ := by
  have hmin : min P 1 = 1 := Nat.min_eq_right hP
  have hone : List.range 1 = [0] := rfl
  have hteam : team 1 = [0] := rfl
  cases h : binary_op init x <;>
    simp [reduce, threadResults, raw_host_buffer, parallelRegion, threadBody, ompFor,
      iterations, totalLoop, readAt, writeAt, call, Run.andThen, Run.inRegion, Run.ret,
      Run.emit, hmin, hone, hteam, h]

theorem min_pos_of_split {owner : Nat → Nat} {P N : Nat} (hN : 0 < N)
    (h : ValidSplit owner (min P N) N) : 0 < min P N := by
  by_contra hc
  have h₀ := h 0 (by omega) hN
  omega

theorem foldl_add_eq_sum (init : Int) (range : List Int) :
    List.foldl (fun a b => a + b) init range = init + range.sum := by
  induction range generalizing init with
  | nil => simp
  | cons x range ih => rw [List.foldl_cons, ih, List.sum_cons, Int.add_assoc]

end Short

/-! ## What `reduce` returns for an associative operator -/

section Reordered

variable (ε)

theorem reduce_assoc_out (f : α → α → α) (hassoc : ∀ a b c, f (f a b) c = f a (f b c))
    (P : Nat) (owner : Nat → Nat) (range : List α) (init : α)
    (hW : 0 < min P range.length) :
    (reduce P owner (total ε f) range init).out =
      .ok (List.foldl f init
        ((blockOrder owner (min P range.length) range.length).filterMap
          fun i => range[i]?)) := by
  have h₁ : partials f range owner (min P range.length) =
      (List.range (min P range.length)).filterMap fun t =>
        range[t]?.map fun s => List.foldl f s (chunk range owner (min P range.length) t) :=
    mapIdx_take _ _ _
  have h₂ : blocks range owner (min P range.length) =
      (List.range (min P range.length)).filterMap fun t =>
        range[t]?.map fun s => s :: chunk range owner (min P range.length) t :=
    mapIdx_take _ _ _
  rw [reduce_total_out ε P owner f range init hW, h₁,
    foldl_seeded f hassoc (fun t => range[t]?)
      (fun t => chunk range owner (min P range.length) t),
    ← h₂, flatten_blocks _ _ _ (Nat.min_le_right _ _)]

theorem reduce_comm_out (f : α → α → α) (hassoc : ∀ a b c, f (f a b) c = f a (f b c))
    (hcomm : ∀ a b, f a b = f b a) (P : Nat) (owner : Nat → Nat) (range : List α) (init : α)
    (hN : 0 < range.length) (h : ValidSplit owner (min P range.length) range.length) :
    (reduce P owner (total ε f) range init).out = .ok (List.foldl f init range) := by
  have hperm := (blockOrder_perm owner (min P range.length) range.length
    (Nat.min_le_right _ _) h).filterMap fun i => range[i]?
  rw [filterMap_range_getElem?] at hperm
  rw [reduce_assoc_out ε f hassoc P owner range init (min_pos_of_split hN h)]
  congr 1
  exact hperm.foldl_eq' (fun x _ y _ z => by rw [hassoc, hcomm x y, ← hassoc]) init

theorem reduce_ordered_out (f : α → α → α) (hassoc : ∀ a b c, f (f a b) c = f a (f b c))
    (P : Nat) (owner : Nat → Nat) (range : List α) (init : α) (hN : 0 < range.length)
    (h : ValidSplit owner (min P range.length) range.length)
    (hP : range.length ≤ P ∨ P = 1) :
    (reduce P owner (total ε f) range init).out = .ok (List.foldl f init range) := by
  have hW := min_pos_of_split hN h
  have hord : blockOrder owner (min P range.length) range.length =
      List.range range.length := by
    by_cases hN : range.length ≤ P
    · rw [Nat.min_eq_right hN]
      exact blockOrder_of_le owner (Nat.le_refl _)
    · have hP' : P = 1 := hP.resolve_left hN
      subst hP'
      have hmin : min 1 range.length = 1 := Nat.min_eq_left (by omega)
      rw [hmin] at h ⊢
      exact blockOrder_one owner (by omega) h
  rw [reduce_assoc_out ε f hassoc P owner range init hW, hord, filterMap_range_getElem?]

theorem filterMap_iterations_one (x : α) (rest : List α) :
    ((iterations 1 (x :: rest).length).filterMap fun i => (x :: rest)[i]?) = rest := by
  have h := filterMap_range_getElem? (x :: rest)
  rw [← range_append_iterations (by simp : 1 ≤ (x :: rest).length),
    List.filterMap_append] at h
  have hone : List.range 1 = [0] := rfl
  rw [hone] at h
  simpa using h

/-- With one thread the value is `combine(init, foldl combine range[0] range[1..])`. -/
theorem reduce_one_thread_out (f : α → α → α) (owner : Nat → Nat) (x : α) (rest : List α)
    (init : α) (h : ValidSplit owner 1 (x :: rest).length) :
    (reduce 1 owner (total ε f) (x :: rest) init).out =
      .ok (f init (List.foldl f x rest)) := by
  have hmin : min 1 (x :: rest).length = 1 := Nat.min_eq_left (by simp)
  have hfilter : ((iterations 1 (x :: rest).length).filter fun i => owner i = 0) =
      iterations 1 (x :: rest).length :=
    List.filter_eq_self.2 fun i hi => by
      have := h i (mem_iterations.1 hi).1 (mem_iterations.1 hi).2
      simp only [decide_eq_true_eq]
      omega
  have hchunk : chunk (x :: rest) owner 1 0 = rest := by
    rw [chunk, hfilter, filterMap_iterations_one]
  rw [reduce_total_out ε 1 owner f (x :: rest) init (by rw [hmin]; decide), hmin]
  simp [partials, hchunk]

end Reordered

/-! ## Consequences of the invariant -/

section Consequences

variable {β : Type}

theorem Sound.exists_value {binary_op : α → α → Except ε α} {t : Nat} {r : Run ε α β}
    {l : List Nat} {Q : β → Prop} (hs : Sound binary_op t r l Q)
    (hall : ∀ p ∈ applications r.log, ∃ v, binary_op p.1 p.2 = .ok v) :
    ∃ b, r.out = .ok b := by
  cases hout : r.out with
  | ok b => exact ⟨b, rfl⟩
  | error e =>
    cases e with
    | thrown e =>
      obtain ⟨p, hp, hpe⟩ := hs.thrown e hout
      obtain ⟨v, hv⟩ := hall p hp
      rw [hv] at hpe
      cases hpe
    | terminated =>
      obtain ⟨p, hp, e, hpe⟩ := hs.terminated hout
      obtain ⟨v, hv⟩ := hall p hp
      rw [hv] at hpe
      cases hpe
    | outOfBounds i => exact absurd hout (hs.inBounds i)

theorem workerLog_reduce_total (ε : Type) (f : α → α → α) (P : Nat) (owner : Nat → Nat)
    (range : List α) (init : α) (t : Nat) :
    workerLog t (reduce P owner (total ε f) range init).log =
      if t < min P range.length then
        t :: (iterations (min P range.length) range.length).filter fun i => owner i = t
      else [] := by
  by_cases hW : 0 < min P range.length
  · exact ((reduce_sound (total ε f) t P owner range init hW).finished _
      (reduce_total_out ε P owner f range init hW)).1
  · have h₀ : min P range.length = 0 := by omega
    rw [reduce_of_min_eq_zero owner _ range init h₀, h₀, if_neg (Nat.not_lt_zero t)]
    rfl

theorem Run.andThen_alive {β γ : Type} {r : Run ε α β} {f : β → Run ε α γ}
    (hr : r.out ≠ .error .terminated) (hf : ∀ b, (f b).out ≠ .error .terminated) :
    (r.andThen f).out ≠ .error .terminated := by
  cases hout : r.out with
  | ok b =>
    rw [Run.andThen_of_ok hout]
    exact hf b
  | error e =>
    rw [Run.andThen_of_error hout]
    intro h
    exact hr (by rw [hout, Except.error.inj h])

theorem readAt_alive (xs : List α) (i : Nat) :
    (readAt xs i : Run ε α α).out ≠ .error .terminated := by
  rw [readAt]
  split <;> simp [Run.ret, Run.fail]

theorem call_alive (binary_op : α → α → Except ε α) (ev : α → α → Event α) (acc x : α) :
    (call binary_op ev acc x).out ≠ .error .terminated := by
  cases h : binary_op acc x <;> simp [call, h]

theorem totalLoop_alive (binary_op : α → α → Except ε α) (buf : List α) (is : List Nat)
    (s : α) : (totalLoop binary_op buf is s).out ≠ .error .terminated := by
  induction is generalizing s with
  | nil => simp [totalLoop, Run.ret]
  | cons i rest ih =>
    exact Run.andThen_alive (readAt_alive buf i) fun x =>
      Run.andThen_alive (call_alive binary_op _ s x) fun s' => ih s'

theorem stripped.whileLoop_alive (binary_op : α → α → Except ε α) (range : List α)
    (pos : Nat) (result : α) :
    (stripped.whileLoop binary_op range pos result).out ≠ .error .terminated := by
  induction range generalizing pos result with
  | nil => simp [stripped.whileLoop, Run.ret]
  | cons x rest ih =>
    exact Run.andThen_alive (call_alive binary_op _ result x) fun r => ih (pos + 1) r

theorem parallelRegion_noThrow (binary_op : α → α → Except ε α) (first : List α)
    (owner : Nat → Nat) (W N : Nat) (team : List Nat) (buf : List α) (e : ε) :
    (parallelRegion binary_op first owner W N team buf).out ≠ .error (.thrown e) := by
  induction team generalizing buf with
  | nil => simp [parallelRegion, Run.ret]
  | cons u team ih =>
    rw [parallelRegion]
    cases hout : (threadBody binary_op first owner W N u buf).out with
    | ok b =>
      rw [Run.inRegion_of_ok hout]
      exact ih b
    | error fl =>
      cases fl with
      | thrown e' => rw [Run.inRegion_of_thrown hout]; simp
      | terminated => rw [Run.inRegion_of_terminated hout]; simp
      | outOfBounds i => rw [Run.inRegion_of_outOfBounds hout]; simp

theorem threadResults_noThrow (binary_op : α → α → Except ε α) (P : Nat) (owner : Nat → Nat)
    (range : List α) (e : ε) :
    (threadResults P owner binary_op range).out ≠ .error (.thrown e) := by
  have hbuf := raw_host_buffer_eq ε range (min P range.length) 0 (by simp)
  rw [threadResults, Run.andThen_of_ok (by rw [hbuf])]
  exact parallelRegion_noThrow binary_op range owner _ _ _ _ e

theorem pairwise_share (owner : Nat → Nat) (W N t : Nat) :
    List.Pairwise (fun a b => a < b)
      (if t < W then t :: (iterations W N).filter fun i => owner i = t else []) := by
  by_cases ht : t < W
  · rw [if_pos ht, List.pairwise_cons]
    refine ⟨fun i hi => ?_, (List.pairwise_lt_range' W (N - W)).sublist
      (List.filter_sublist _)⟩
    have := (mem_iterations.1 (List.mem_filter.1 hi).1).1
    omega
  · rw [if_neg ht]
    exact List.Pairwise.nil

theorem blockOrder_getElem_one (owner : Nat → Nat) {W N : Nat} (hW : 1 ≤ W) (hN : W < N)
    (h₀ : owner W = 0) : (blockOrder owner W N)[1]? = some W := by
  obtain ⟨k, rfl⟩ : ∃ k, W = k + 1 := ⟨W - 1, by omega⟩
  obtain ⟨m, hm⟩ : ∃ m, N - (k + 1) = m + 1 := ⟨N - (k + 1) - 1, by omega⟩
  have hit : iterations (k + 1) N = (k + 1) :: List.range' (k + 2) m := by
    rw [iterations, hm, List.range'_succ]
  simp [blockOrder, List.range_succ_eq_map, hit, h₀]

theorem blockOrder_static_iff {W N : Nat} (hWN : W ≤ N) (hpos : N = 0 ∨ 0 < W) :
    blockOrder (staticOwner W N) W N = List.range N ↔ N ≤ W ∨ W ≤ 1 := by
  constructor
  · intro h
    by_contra hc
    have h₁ := blockOrder_getElem_one (staticOwner W N) (by omega : 1 ≤ W) (by omega : W < N)
      (by simp [staticOwner])
    rw [h, List.getElem?_range (by omega)] at h₁
    simp only [Option.some.injEq] at h₁
    omega
  · intro h
    by_cases hle : N ≤ W
    · have hEq : W = N := Nat.le_antisymm hWN hle
      rw [blockOrder_of_le _ hle, hEq]
    · have hone : W = 1 := by omega
      subst hone
      exact blockOrder_one _ (by omega) (staticOwner_valid 1 N (by decide))

end Consequences

/-! ## The statements of the specification -/

section Statements

/-- C1, as stated, fails.  String concatenation is associative and the static
split of `[2, 4)` among two workers is a work-sharing split, yet on
`["a", "b", "c", "d"]` with two threads the OpenMP variant returns `"acbd"`,
which is not the left fold `"abcd"` that the sequential variant returns. -/
theorem concat_two_threads_reorders :
    (∀ a b c : String, a ++ b ++ c = a ++ (b ++ c)) ∧
    ValidSplit (staticOwner 2 4) 2 4 ∧
    (reduce 2 (staticOwner 2 4) (total Unit fun a b : String => a ++ b)
      ["a", "b", "c", "d"] "").out = .ok "acbd" ∧
    (stripped.reduce (total Unit fun a b : String => a ++ b)
      ["a", "b", "c", "d"] "").out = .ok "abcd" ∧
    (reduce 2 (staticOwner 2 4) (total Unit fun a b : String => a ++ b)
      ["a", "b", "c", "d"] "").out ≠
        .ok (List.foldl (fun a b : String => a ++ b) "" ["a", "b", "c", "d"]) :=
  ⟨String.append_assoc, staticOwner_valid 2 4 (by decide), rfl, rfl, fun h =>
    absurd (Except.ok.inj (h : (Except.ok "acbd" : Except (Failure Unit) String) = _))
      (by decide)⟩

/-- C1, amended: for every associative combine that is also commutative (or,
without commutativity, whenever `N ≤ P` or `P = 1`), every range that is not
empty, every `init`, every `P` and every work-sharing split of `[W, N)` among
the `W = min P N` workers, the OpenMP variant returns
`foldl combine init range`, which is also what the sequential variant
returns. -/
theorem reduce_agrees_with_stripped (ε : Type) (f : α → α → α)
    (hassoc : ∀ a b c, f (f a b) c = f a (f b c)) (P : Nat) (owner : Nat → Nat)
    (range : List α) (init : α) (hN : 0 < range.length)
    (hsplit : ValidSplit owner (min P range.length) range.length)
    (hcomm : (∀ a b, f a b = f b a) ∨ range.length ≤ P ∨ P = 1) :
    (reduce P owner (total ε f) range init).out = .ok (List.foldl f init range) ∧
    (stripped.reduce (total ε f) range init).out = .ok (List.foldl f init range) := by
  refine ⟨?_, stripped.whileLoop_total ε f range 0 init⟩
  rcases hcomm with hcomm | hord
  · exact reduce_comm_out ε f hassoc hcomm P owner range init hN hsplit
  · exact reduce_ordered_out ε f hassoc P owner range init hN hsplit hord

/-- C1, amended, at `[1, 2, 3, 4, 5]` with multiplication, `init = 1` and two
threads: both variants return `120`. -/
theorem reduce_agrees_with_stripped_witness :
    (∀ a b c : Nat, a * b * c = a * (b * c)) ∧
    0 < [1, 2, 3, 4, 5].length ∧
    ValidSplit (staticOwner 2 5) (min 2 [1, 2, 3, 4, 5].length) [1, 2, 3, 4, 5].length ∧
    ((∀ a b : Nat, a * b = b * a) ∨ [1, 2, 3, 4, 5].length ≤ 2 ∨ 2 = 1) ∧
    (reduce 2 (staticOwner 2 5) (total Unit fun a b : Nat => a * b)
      [1, 2, 3, 4, 5] 1).out = .ok 120 ∧
    (stripped.reduce (total Unit fun a b : Nat => a * b) [1, 2, 3, 4, 5] 1).out = .ok 120 :=
  ⟨Nat.mul_assoc, by decide, staticOwner_valid 2 5 (by decide), Or.inl Nat.mul_comm,
    reduce_agrees_with_stripped Unit (fun a b : Nat => a * b) Nat.mul_assoc 2 (staticOwner 2 5)
      [1, 2, 3, 4, 5] 1 (by decide) (staticOwner_valid 2 5 (by decide))
      (Or.inl Nat.mul_comm)⟩

/-- C2: the sequential variant returns exactly the reference left fold
`combine(...combine(combine(init, r[0]), r[1])..., r[N-1])`, for every range,
every `init` and every combine. -/
theorem stripped_reduce_eq_foldl (ε : Type) (f : α → α → α) (range : List α) (init : α) :
    (stripped.reduce (total ε f) range init).out = .ok (List.foldl f init range) :=
  stripped.whileLoop_total ε f range 0 init

/-- C3, as stated, fails.  With one thread available (`W = 1`) and subtraction
on `[1, 2]` from `init = 0` the OpenMP variant returns `0 - (1 - 2) = 1`, while
the reference left fold is `(0 - 1) - 2 = -3`. -/
theorem reduce_sub_ne_foldl :
    min 1 [(1 : Int), 2].length ≤ 1 ∧
    ValidSplit (staticOwner 1 2) 1 2 ∧
    (reduce 1 (staticOwner 1 2) (total Unit fun a b : Int => a - b) [1, 2] 0).out = .ok 1 ∧
    List.foldl (fun a b : Int => a - b) 0 [1, 2] = -3 ∧
    (reduce 1 (staticOwner 1 2) (total Unit fun a b : Int => a - b) [1, 2] 0).out ≠
      .ok (List.foldl (fun a b : Int => a - b) 0 [1, 2]) :=
  ⟨by decide, staticOwner_valid 1 2 (by decide), rfl, rfl, fun h =>
    absurd (Except.ok.inj (h : (Except.ok 1 : Except (Failure Unit) Int) = _)) (by decide)⟩

/-- C3, amended: when `W = min P N ≤ 1` and the range is not empty, for every
`init` and every work-sharing split, the OpenMP variant returns
`foldl combine init range` for every combine if `N = 1`, and for every
associative combine if `P = 1`.  There is no separate sequential path: with
`P = 1` the value is `combine(init, foldl combine range[0] range[1..])`, for
every combine. -/
theorem reduce_eq_foldl_of_le_one (ε : Type) (f : α → α → α) (P : Nat) (owner : Nat → Nat)
    (range : List α) (init : α) (hN : 0 < range.length) (hW : min P range.length ≤ 1)
    (hsplit : ValidSplit owner (min P range.length) range.length) :
    ((range.length = 1 ∨ ∀ a b c, f (f a b) c = f a (f b c)) →
      (reduce P owner (total ε f) range init).out = .ok (List.foldl f init range)) ∧
    (P = 1 → ∀ x rest, range = x :: rest →
      (reduce P owner (total ε f) range init).out =
        .ok (f init (List.foldl f x rest))) := by
  have hpos := min_pos_of_split hN hsplit
  have hP : range.length ≤ P ∨ P = 1 := by
    by_cases hle : range.length ≤ P
    · exact Or.inl hle
    · right
      rw [Nat.min_eq_left (by omega)] at hW hpos
      omega
  refine ⟨fun hf => ?_, fun hone x rest hrange => ?_⟩
  · rcases hf with hone | hassoc
    · have hle : range.length ≤ P := by
        rcases hP with h | h
        · exact h
        · omega
      rw [reduce_total_out ε P owner f range init hpos, partials_of_le f range owner hle]
    · exact reduce_ordered_out ε f hassoc P owner range init hN hsplit hP
  · subst hone
    subst hrange
    have hmin : min 1 (x :: rest).length = 1 := Nat.min_eq_left (by simp)
    rw [hmin] at hsplit
    exact reduce_one_thread_out ε f owner x rest init hsplit

/-- C3, amended, at `[1, 2, 3]` with one thread and `init = 10`: addition gives
the left fold `16`, and subtraction gives `10 - ((1 - 2) - 3) = 14`. -/
theorem reduce_eq_foldl_of_le_one_witness :
    0 < [(1 : Int), 2, 3].length ∧ min 1 [(1 : Int), 2, 3].length ≤ 1 ∧
    ValidSplit (fun _ => 0) (min 1 [(1 : Int), 2, 3].length) [(1 : Int), 2, 3].length ∧
    (reduce 1 (fun _ => 0) (total Unit fun a b : Int => a + b) [1, 2, 3] 10).out = .ok 16 ∧
    (reduce 1 (fun _ => 0) (total Unit fun a b : Int => a - b) [1, 2, 3] 10).out = .ok 14 :=
  ⟨by decide, by decide, fun _ _ _ => (by decide : 0 < 1),
    (reduce_eq_foldl_of_le_one Unit (fun a b : Int => a + b) 1 (fun _ => 0) [1, 2, 3] 10
      (by decide) (by decide) (fun _ _ _ => (by decide : 0 < 1))).1 (Or.inr Int.add_assoc),
    (reduce_eq_foldl_of_le_one Unit (fun a b : Int => a - b) 1 (fun _ => 0) [1, 2, 3] 10
      (by decide) (by decide) (fun _ _ _ => (by decide : 0 < 1))).2 rfl 1 [2, 3] rfl⟩

/-- C4: for every list of integers that is not empty, every integer `init`,
every `P` and every work-sharing split of `[W, N)` among the `W = min P N`
workers, the OpenMP variant with exact integer addition returns
`init + sum range`, `init` added once.  Over the empty list it does not return
`init`: the code has no guard for `N = 0`, and thread 0 of the parallel region
accesses `thread_results[0]` of an empty buffer. -/
theorem reduce_add_eq_sum (ε : Type) (P : Nat) (owner : Nat → Nat) (range : List Int)
    (init : Int) :
    (0 < range.length → ValidSplit owner (min P range.length) range.length →
      (reduce P owner (total ε fun a b : Int => a + b) range init).out =
        .ok (init + range.sum)) ∧
    (reduce P owner (total ε fun a b : Int => a + b) [] init).out =
      .error (.outOfBounds 0) := by
  refine ⟨fun hN hsplit => ?_, ?_⟩
  · rw [reduce_comm_out ε (fun a b : Int => a + b) Int.add_assoc Int.add_comm P owner range
      init hN hsplit, foldl_add_eq_sum]
  · rw [reduce_of_min_eq_zero owner _ [] init (Nat.min_zero P)]

/-- C4 at `[1, ..., 10]`, `init = 0`, four threads and the static split: the
result is `55`. -/
theorem reduce_add_eq_sum_witness :
    0 < [(1 : Int), 2, 3, 4, 5, 6, 7, 8, 9, 10].length ∧
    ValidSplit (staticOwner 4 10) (min 4 [(1 : Int), 2, 3, 4, 5, 6, 7, 8, 9, 10].length)
      [(1 : Int), 2, 3, 4, 5, 6, 7, 8, 9, 10].length ∧
    (reduce 4 (staticOwner 4 10) (total Unit fun a b : Int => a + b)
      [1, 2, 3, 4, 5, 6, 7, 8, 9, 10] 0).out = .ok 55 :=
  ⟨by decide, staticOwner_valid 4 10 (by decide),
    (reduce_add_eq_sum Unit 4 (staticOwner 4 10) [1, 2, 3, 4, 5, 6, 7, 8, 9, 10] 0).1
      (by decide) (staticOwner_valid 4 10 (by decide))⟩

/-- C5: over the empty range the sequential variant returns `init` and calls
the combine zero times.  The OpenMP variant calls the combine zero times too,
but does not return `init`: with `N = 0` it builds an empty `thread_results`
and enters the parallel region, where thread 0 reads `thread_results[0]`
(line 79), outside the buffer. -/
theorem reduce_empty_range (P : Nat) (owner : Nat → Nat) (binary_op : α → α → Except ε α)
    (init : α) :
    (reduce P owner binary_op [] init).out = .error (.outOfBounds 0) ∧
    applications (reduce P owner binary_op [] init).log = [] ∧
    (stripped.reduce binary_op [] init).out = .ok init ∧
    applications (stripped.reduce binary_op [] init).log = [] := by
  rw [reduce_of_min_eq_zero owner binary_op [] init (Nat.min_zero P)]
  exact ⟨rfl, rfl, rfl, rfl⟩

/-- C6: when `1 ≤ N ≤ P` the work-shared loop `[W, N)` is empty, the buffer of
partials the parallel region leaves is the range itself (every partial is its
seed), and the OpenMP variant returns `foldl combine init range` for every
combine.  For `N = 0`, which `N ≤ P` includes, it does not return `init`:
thread 0 of the parallel region accesses `thread_results[0]` of an empty
buffer. -/
theorem reduce_eq_foldl_of_length_le (ε : Type) (f : α → α → α) (P : Nat)
    (owner : Nat → Nat) (range : List α) (init : α) :
    (0 < range.length → range.length ≤ P →
      min P range.length = range.length ∧
      iterations (min P range.length) range.length = [] ∧
      (threadResults P owner (total ε f) range).out = .ok range ∧
      (reduce P owner (total ε f) range init).out = .ok (List.foldl f init range)) ∧
    (reduce P owner (total ε f) [] init).out = .error (.outOfBounds 0) := by
  refine ⟨fun hN h => ?_, ?_⟩
  · have hW : 0 < min P range.length := by
      rw [Nat.min_eq_right h]
      exact hN
    refine ⟨Nat.min_eq_right h, ?_, ?_, ?_⟩
    · rw [Nat.min_eq_right h, iterations, Nat.sub_self]
      rfl
    · rw [threadResults_total ε P owner f range hW, partials_of_le f range owner h]
    · rw [reduce_total_out ε P owner f range init hW, partials_of_le f range owner h]
  · rw [reduce_of_min_eq_zero owner _ [] init (Nat.min_zero P)]

/-- C6 at `["a", "b", "c"]` with string concatenation, `init = ""` and three
threads: the result is `"abc"`. -/
theorem reduce_eq_foldl_of_length_le_witness :
    0 < ["a", "b", "c"].length ∧ ["a", "b", "c"].length ≤ 3 ∧
    (reduce 3 (staticOwner 3 3) (total Unit fun a b : String => a ++ b)
      ["a", "b", "c"] "").out = .ok "abc" :=
  ⟨by decide, by decide,
    ((reduce_eq_foldl_of_length_le Unit (fun a b : String => a ++ b) 3 (staticOwner 3 3)
      ["a", "b", "c"] "").1 (by decide) (by decide)).2.2.2⟩

/-- C7: over a one-element range `[x]`, with `P ≥ 1`, both variants return
`combine(init, x)` and call the combine exactly once, on `(init, x)`; the calls
are the same for a combine that may throw. -/
theorem reduce_one_element (ε : Type) (f : α → α → α) (binary_op : α → α → Except ε α)
    (P : Nat) (owner : Nat → Nat) (x init : α) (hP : 1 ≤ P) :
    (reduce P owner (total ε f) [x] init).out = .ok (f init x) ∧
    applications (reduce P owner binary_op [x] init).log = [(init, x)] ∧
    (stripped.reduce (total ε f) [x] init).out = .ok (f init x) ∧
    applications (stripped.reduce binary_op [x] init).log = [(init, x)] := by
  rw [reduce_singleton_eq hP, reduce_singleton_eq hP]
  refine ⟨rfl, rfl, rfl, ?_⟩
  cases h : binary_op init x <;>
    simp [stripped.reduce, stripped.whileLoop, call, Run.andThen, Run.ret, h, applications]

/-- C7 at `[5]` with subtraction, `init = 2` and three threads: the result is
`-3`. -/
theorem reduce_one_element_witness :
    1 ≤ 3 ∧
    (reduce 3 (staticOwner 1 1) (total Unit fun a b : Int => a - b) [5] 2).out = .ok (-3) ∧
    applications (reduce 3 (staticOwner 1 1) (total Unit fun a b : Int => a - b)
      [5] 2).log = [(2, 5)] :=
  ⟨by decide,
    (reduce_one_element Unit (fun a b : Int => a - b) (total Unit fun a b : Int => a - b) 3
      (staticOwner 1 1) 5 2 (by decide)).1,
    (reduce_one_element Unit (fun a b : Int => a - b) (total Unit fun a b : Int => a - b) 3
      (staticOwner 1 1) 5 2 (by decide)).2.1⟩

/-- C8, as stated, fails.  String concatenation is associative, and on
`["a", "b", "c", "d"]` one thread gives `"abcd"` while two threads give
`"acbd"`, each with a work-sharing split of its own `[W, N)`. -/
theorem reduce_concat_depends_on_threads :
    (∀ a b c : String, a ++ b ++ c = a ++ (b ++ c)) ∧
    ValidSplit (staticOwner 1 4) 1 4 ∧ ValidSplit (staticOwner 2 4) 2 4 ∧
    (reduce 1 (staticOwner 1 4) (total Unit fun a b : String => a ++ b)
      ["a", "b", "c", "d"] "").out = .ok "abcd" ∧
    (reduce 2 (staticOwner 2 4) (total Unit fun a b : String => a ++ b)
      ["a", "b", "c", "d"] "").out = .ok "acbd" ∧
    (reduce 1 (staticOwner 1 4) (total Unit fun a b : String => a ++ b)
      ["a", "b", "c", "d"] "").out ≠
      (reduce 2 (staticOwner 2 4) (total Unit fun a b : String => a ++ b)
        ["a", "b", "c", "d"] "").out :=
  ⟨String.append_assoc, staticOwner_valid 1 4 (by decide), staticOwner_valid 2 4 (by decide),
    rfl, rfl, fun h =>
    absurd (Except.ok.inj (h : (Except.ok "abcd" : Except (Failure Unit) String) =
      Except.ok "acbd")) (by decide)⟩

/-- C8, amended: for every combine that is associative and commutative, every
range, every `init` and any two values `P₁`, `P₂` of the available
parallelism, each with a work-sharing split of its own `[W, N)`, the OpenMP
variant returns the same value. -/
theorem reduce_independent_of_threads (ε : Type) (f : α → α → α)
    (hassoc : ∀ a b c, f (f a b) c = f a (f b c)) (hcomm : ∀ a b, f a b = f b a)
    (P₁ P₂ : Nat) (owner₁ owner₂ : Nat → Nat) (range : List α) (init : α)
    (h₁ : ValidSplit owner₁ (min P₁ range.length) range.length)
    (h₂ : ValidSplit owner₂ (min P₂ range.length) range.length) :
    (reduce P₁ owner₁ (total ε f) range init).out =
      (reduce P₂ owner₂ (total ε f) range init).out := by
  by_cases hN : 0 < range.length
  · rw [reduce_comm_out ε f hassoc hcomm P₁ owner₁ range init hN h₁,
      reduce_comm_out ε f hassoc hcomm P₂ owner₂ range init hN h₂]
  · have hz₁ : min P₁ range.length = 0 := by
      have := Nat.min_le_right P₁ range.length
      omega
    have hz₂ : min P₂ range.length = 0 := by
      have := Nat.min_le_right P₂ range.length
      omega
    rw [reduce_of_min_eq_zero owner₁ _ range init hz₁,
      reduce_of_min_eq_zero owner₂ _ range init hz₂]

/-- C8, amended, at `[1, ..., 7]` with addition: one thread and three threads
agree. -/
theorem reduce_independent_of_threads_witness :
    (∀ a b c : Nat, a + b + c = a + (b + c)) ∧ (∀ a b : Nat, a + b = b + a) ∧
    ValidSplit (staticOwner 1 7) (min 1 [1, 2, 3, 4, 5, 6, 7].length)
      [1, 2, 3, 4, 5, 6, 7].length ∧
    ValidSplit (staticOwner 3 7) (min 3 [1, 2, 3, 4, 5, 6, 7].length)
      [1, 2, 3, 4, 5, 6, 7].length ∧
    (reduce 1 (staticOwner 1 7) (total Unit fun a b : Nat => a + b)
      [1, 2, 3, 4, 5, 6, 7] 0).out =
      (reduce 3 (staticOwner 3 7) (total Unit fun a b : Nat => a + b)
        [1, 2, 3, 4, 5, 6, 7] 0).out :=
  ⟨Nat.add_assoc, Nat.add_comm, staticOwner_valid 1 7 (by decide),
    staticOwner_valid 3 7 (by decide),
    reduce_independent_of_threads Unit (fun a b : Nat => a + b) Nat.add_assoc Nat.add_comm
      1 3 (staticOwner 1 7) (staticOwner 3 7) [1, 2, 3, 4, 5, 6, 7] 0
      (staticOwner_valid 1 7 (by decide)) (staticOwner_valid 3 7 (by decide))⟩

/-- C9, as stated, fails for the OpenMP variant.  On `[1, ..., 10]` with four
threads and a combine that fails on the 7th element, the failing call
`combine(2, 7)` is made by thread 1 inside the parallel region (line 83); the
exception cannot leave the region, so the run ends terminated and `reduce`
does not return that failure. -/
theorem throw_in_region_is_not_returned :
    (2, 7) ∈ applications
      (reduce 4 (staticOwner 4 10) (failOn 7) [1, 2, 3, 4, 5, 6, 7, 8, 9, 10] 0).log ∧
    failOn 7 2 7 = .error 7 ∧
    (reduce 4 (staticOwner 4 10) (failOn 7) [1, 2, 3, 4, 5, 6, 7, 8, 9, 10] 0).out =
      .error .terminated ∧
    (reduce 4 (staticOwner 4 10) (failOn 7) [1, 2, 3, 4, 5, 6, 7, 8, 9, 10] 0).out ≠
      .error (.thrown 7) :=
  ⟨by decide, rfl, rfl, fun h => by
    have h' : (Except.error .terminated : Except (Failure Nat) Nat) =
        .error (.thrown 7) := h
    cases h'⟩

/-- C9, amended: with a combine that may fail.  In the sequential variant, a
call of the combine that fails makes `reduce` end with that failure and no
value, and if no call fails `reduce` returns a value.  In the OpenMP variant,
for `P ≥ 1` and a range that is not empty: a call that fails inside the
parallel region ends the run terminated (nothing is returned, not the failure
either); a call that fails in the final loop over the partials makes `reduce`
end with that failure; in both cases no value is returned; and if no call
fails `reduce` returns a value. -/
theorem reduce_failure (binary_op : α → α → Except ε α) (P : Nat) (owner : Nat → Nat)
    (range : List α) (init : α) :
    (∀ p ∈ applications (stripped.reduce binary_op range init).log, ∀ e,
      binary_op p.1 p.2 = .error e →
        (stripped.reduce binary_op range init).out = .error (.thrown e)) ∧
    ((∀ p ∈ applications (stripped.reduce binary_op range init).log,
      ∃ v, binary_op p.1 p.2 = .ok v) →
        ∃ v, (stripped.reduce binary_op range init).out = .ok v) ∧
    (1 ≤ P → 0 < range.length →
      (∀ p ∈ applications (threadResults P owner binary_op range).log, ∀ e,
        binary_op p.1 p.2 = .error e →
          (reduce P owner binary_op range init).out = .error .terminated) ∧
      (∀ buf, (threadResults P owner binary_op range).out = .ok buf →
        ∀ p ∈ applications
          (totalLoop binary_op buf (List.range (min P range.length)) init).log, ∀ e,
          binary_op p.1 p.2 = .error e →
            (reduce P owner binary_op range init).out = .error (.thrown e)) ∧
      (∀ p ∈ applications (reduce P owner binary_op range init).log, ∀ e,
        binary_op p.1 p.2 = .error e →
          (reduce P owner binary_op range init).out = .error (.thrown e) ∨
            (reduce P owner binary_op range init).out = .error .terminated) ∧
      ((∀ p ∈ applications (reduce P owner binary_op range init).log,
        ∃ v, binary_op p.1 p.2 = .ok v) →
          ∃ v, (reduce P owner binary_op range init).out = .ok v)) := by
  have hs := stripped.whileLoop_sound binary_op 0 range 0 init
  refine ⟨fun p hp e he => ?_, hs.exists_value, fun hP hN => ?_⟩
  · rcases hs.honest p hp e he with h | h
    · exact h
    · exact absurd h (stripped.whileLoop_alive binary_op range 0 init)
  · have hW : 0 < min P range.length := by omega
    have hr := reduce_sound binary_op 0 P owner range init hW
    have ht := threadResults_sound binary_op 0 P owner range hW
    refine ⟨fun p hp e he => ?_, fun buf hbuf p hp e he => ?_, hr.honest, hr.exists_value⟩
    · have hterm : (threadResults P owner binary_op range).out = .error .terminated := by
        rcases ht.honest p hp e he with h | h
        · exact absurd h (threadResults_noThrow binary_op P owner range e)
        · exact h
      rw [reduce, Run.andThen_of_error hterm]
    · have hlen := (ht.finished buf hbuf).2
      have hl := totalLoop_sound binary_op 0 buf (List.range (min P range.length))
        (fun i hi => by rw [hlen]; exact List.mem_range.1 hi) init
      rw [reduce, Run.andThen_of_ok hbuf]
      rcases hl.honest p hp e he with h | h
      · exact h
      · exact absurd h (totalLoop_alive binary_op buf _ init)

/-- C9, amended, at three inputs.  The sequential variant on `[1, ..., 10]`
with a combine that fails on the 7th element ends with that failure; the
OpenMP variant on `[1, 2, 3, 4]` with two threads and a combine that fails on
the partial `6` of thread 1 in the final loop ends with that failure; the
OpenMP variant on `[1, ..., 10]` with four threads and a combine that fails on
the 7th element, inside the parallel region, ends terminated. -/
theorem reduce_failure_witness :
    (stripped.reduce (failOn 7) [1, 2, 3, 4, 5, 6, 7, 8, 9, 10] 0).out =
      .error (.thrown 7) ∧
    (reduce 2 (staticOwner 2 4) (failOn 6) [1, 2, 3, 4] 0).out = .error (.thrown 6) ∧
    (reduce 4 (staticOwner 4 10) (failOn 7) [1, 2, 3, 4, 5, 6, 7, 8, 9, 10] 0).out =
      .error .terminated :=
  ⟨(reduce_failure (failOn 7) 4 (staticOwner 4 10) [1, 2, 3, 4, 5, 6, 7, 8, 9, 10] 0).1
      (21, 7) (by decide) 7 rfl,
    ((reduce_failure (failOn 6) 2 (staticOwner 2 4) [1, 2, 3, 4] 0).2.2
      (by decide) (by decide)).2.1 [4, 6] rfl (4, 6) (by decide) 6 rfl,
    ((reduce_failure (failOn 7) 4 (staticOwner 4 10) [1, 2, 3, 4, 5, 6, 7, 8, 9, 10] 0).2.2
      (by decide) (by decide)).1 (2, 7) (by decide) 7 rfl⟩

/-- C10: for every range, every `P`, every split and every worker `t`, the
source indices whose elements worker `t` takes into its partial, in the order
taken, are strictly increasing, also when the combine throws; when the
combine is total they are the seed index `t` followed by the indices of
`[W, N)` handed to `t`, in increasing order (and nothing for `t ≥ W`). -/
theorem workerLog_increasing (ε : Type) (binary_op : α → α → Except ε α) (f : α → α → α)
    (P : Nat) (owner : Nat → Nat) (range : List α) (init : α) (t : Nat) :
    List.Pairwise (fun a b => a < b)
      (workerLog t (reduce P owner binary_op range init).log) ∧
    workerLog t (reduce P owner (total ε f) range init).log =
      if t < min P range.length then
        t :: (iterations (min P range.length) range.length).filter fun i => owner i = t
      else [] := by
  refine ⟨?_, workerLog_reduce_total ε f P owner range init t⟩
  by_cases hW : 0 < min P range.length
  · exact (pairwise_share owner (min P range.length) range.length t).sublist
      (reduce_sound binary_op t P owner range init hW).sofar
  · rw [reduce_of_min_eq_zero owner binary_op range init (by omega)]
    exact List.Pairwise.nil

/-- C11: for every range with `N ≥ 1`, every `init`, combine, `P ≥ 1` and
split, the buffer the parallel region leaves holds the partials
`partial[t] = foldl combine range[t] (the elements of [W, N) handed to worker
t, in increasing index order)`, `t < W`, and the OpenMP variant returns
`combine(...combine(combine(init, partial[0]), partial[1])..., partial[W-1])`:
`init` enters once, as the leftmost operand of the final fold. -/
theorem reduce_eq_foldl_partials (ε : Type) (f : α → α → α) (P : Nat) (owner : Nat → Nat)
    (range : List α) (init : α) (hP : 1 ≤ P) (hN : 0 < range.length) :
    (threadResults P owner (total ε f) range).out =
      .ok (partials f range owner (min P range.length)) ∧
    (reduce P owner (total ε f) range init).out =
      .ok (List.foldl f init (partials f range owner (min P range.length))) ∧
    (partials f range owner (min P range.length)).length = min P range.length ∧
    ∀ t, t < min P range.length →
      (partials f range owner (min P range.length))[t]? =
        range[t]?.map fun seed =>
          List.foldl f seed (chunk range owner (min P range.length) t) := by
  have hW : 0 < min P range.length := by omega
  refine ⟨threadResults_total ε P owner f range hW,
    reduce_total_out ε P owner f range init hW, ?_, fun t ht => ?_⟩
  · rw [partials_length, Nat.min_eq_left (Nat.min_le_right _ _)]
  · rw [partials, List.getElem?_mapIdx, List.getElem?_take_of_lt ht]

/-- C11 at `[1, 2, 3, 4, 5]` with subtraction, `init = 100`, two threads and
the static split: the partials are `1 - 3 - 4 = -6` and `2 - 5 = -3`, and the
result is `100 - (-6) - (-3) = 109`. -/
theorem reduce_eq_foldl_partials_witness :
    1 ≤ 2 ∧ 0 < [(1 : Int), 2, 3, 4, 5].length ∧
    (threadResults 2 (staticOwner 2 5) (total Unit fun a b : Int => a - b)
      [1, 2, 3, 4, 5]).out = .ok [-6, -3] ∧
    (reduce 2 (staticOwner 2 5) (total Unit fun a b : Int => a - b)
      [1, 2, 3, 4, 5] 100).out = .ok 109 :=
  ⟨by decide, by decide,
    (reduce_eq_foldl_partials Unit (fun a b : Int => a - b) 2 (staticOwner 2 5)
      [1, 2, 3, 4, 5] 100 (by decide) (by decide)).1,
    (reduce_eq_foldl_partials Unit (fun a b : Int => a - b) 2 (staticOwner 2 5)
      [1, 2, 3, 4, 5] 100 (by decide) (by decide)).2.1⟩

/-- C12: for an associative combine, `P ≥ 1` and a range that is not empty,
the OpenMP variant returns the left fold of the input reordered block by
block, `foldl combine init (block_0 ++ ... ++ block_{W-1})`, where `block_t`
is `range[t]` followed by the elements of `[W, N)` handed to worker `t`, in
increasing index order.  With the static contiguous split (and `P ≥ 1`) the
order of the indices in the blocks is the original order `0, ..., N - 1`
exactly when `N ≤ W` or `W ≤ 1`.  Over the empty range the OpenMP variant does
not return that fold (which is `init`): thread 0 of the parallel region
accesses `thread_results[0]` of an empty buffer. -/
theorem reduce_eq_foldl_blocks (ε : Type) (f : α → α → α) (P : Nat) (owner : Nat → Nat)
    (range : List α) (init : α) :
    ((∀ a b c, f (f a b) c = f a (f b c)) → 1 ≤ P → 0 < range.length →
      (reduce P owner (total ε f) range init).out =
        .ok (List.foldl f init (blocks range owner (min P range.length)).flatten)) ∧
    (blocks range owner (min P range.length)).flatten =
      ((blockOrder owner (min P range.length) range.length).filterMap fun i => range[i]?) ∧
    (1 ≤ P →
      (blockOrder (staticOwner (min P range.length) range.length) (min P range.length)
          range.length = List.range range.length ↔
        range.length ≤ min P range.length ∨ min P range.length ≤ 1)) ∧
    (reduce P owner (total ε f) [] init).out = .error (.outOfBounds 0) := by
  refine ⟨fun hassoc hP hN => ?_, flatten_blocks range owner _ (Nat.min_le_right _ _),
    fun hP => ?_, ?_⟩
  · rw [flatten_blocks range owner _ (Nat.min_le_right _ _)]
    exact reduce_assoc_out ε f hassoc P owner range init (by omega)
  · exact blockOrder_static_iff (Nat.min_le_right _ _) (by omega)
  · rw [reduce_of_min_eq_zero owner _ [] init (Nat.min_zero P)]

/-- C12 at `["a", "b", "c", "d"]` with string concatenation and two threads:
the blocks are `["a", "c"]` and `["b", "d"]` and the result is `"acbd"`. -/
theorem reduce_eq_foldl_blocks_witness :
    (∀ a b c : String, a ++ b ++ c = a ++ (b ++ c)) ∧
    blocks ["a", "b", "c", "d"] (staticOwner 2 4) 2 = [["a", "c"], ["b", "d"]] ∧
    (reduce 2 (staticOwner 2 4) (total Unit fun a b : String => a ++ b)
      ["a", "b", "c", "d"] "").out = .ok "acbd" :=
  ⟨String.append_assoc, rfl,
    (reduce_eq_foldl_blocks Unit (fun a b : String => a ++ b) 2
      (staticOwner 2 4) ["a", "b", "c", "d"] "").1 String.append_assoc (by decide)
      (by decide)⟩

/-- C13: for a combine that is associative and commutative, every range that
is not empty, every `init`, every `P` and every work-sharing split of `[W, N)`
among the `W` workers (a split may leave workers without indices), the OpenMP
variant returns `foldl combine init range`, the value of the sequential
variant; so any two splits give the same result.  Over the empty range the
OpenMP variant does not return `foldl combine init [] = init`: thread 0 of the
parallel region accesses `thread_results[0]` of an empty buffer. -/
theorem reduce_independent_of_split (ε : Type) (f : α → α → α) (P : Nat)
    (owner owner' : Nat → Nat) (range : List α) (init : α) :
    ((∀ a b c, f (f a b) c = f a (f b c)) → (∀ a b, f a b = f b a) → 0 < range.length →
      ValidSplit owner (min P range.length) range.length →
      ValidSplit owner' (min P range.length) range.length →
      (reduce P owner (total ε f) range init).out = .ok (List.foldl f init range) ∧
      (reduce P owner (total ε f) range init).out =
        (stripped.reduce (total ε f) range init).out ∧
      (reduce P owner' (total ε f) range init).out =
        (reduce P owner (total ε f) range init).out) ∧
    (reduce P owner (total ε f) [] init).out = .error (.outOfBounds 0) ∧
    (stripped.reduce (total ε f) [] init).out = .ok init := by
  refine ⟨fun hassoc hcomm hN h h' => ?_, ?_, rfl⟩
  · have h₁ := reduce_comm_out ε f hassoc hcomm P owner range init hN h
    have h₂ := reduce_comm_out ε f hassoc hcomm P owner' range init hN h'
    have h₃ : (stripped.reduce (total ε f) range init).out =
        .ok (List.foldl f init range) := stripped.whileLoop_total ε f range 0 init
    exact ⟨h₁, h₁.trans h₃.symm, h₂.trans h₁.symm⟩
  · rw [reduce_of_min_eq_zero owner _ [] init (Nat.min_zero P)]

/-- C13 at `[1, ..., 6]` with addition and three threads, for the static split
and for the split that hands every index to worker 0: the result is `21`. -/
theorem reduce_independent_of_split_witness :
    (∀ a b c : Nat, a + b + c = a + (b + c)) ∧ (∀ a b : Nat, a + b = b + a) ∧
    0 < [1, 2, 3, 4, 5, 6].length ∧
    ValidSplit (staticOwner 3 6) (min 3 [1, 2, 3, 4, 5, 6].length) [1, 2, 3, 4, 5, 6].length ∧
    ValidSplit (fun _ => 0) (min 3 [1, 2, 3, 4, 5, 6].length) [1, 2, 3, 4, 5, 6].length ∧
    (reduce 3 (staticOwner 3 6) (total Unit fun a b : Nat => a + b)
      [1, 2, 3, 4, 5, 6] 0).out = .ok 21 ∧
    (reduce 3 (fun _ => 0) (total Unit fun a b : Nat => a + b) [1, 2, 3, 4, 5, 6] 0).out =
      (reduce 3 (staticOwner 3 6) (total Unit fun a b : Nat => a + b)
        [1, 2, 3, 4, 5, 6] 0).out :=
  ⟨Nat.add_assoc, Nat.add_comm, by decide, staticOwner_valid 3 6 (by decide),
    fun _ _ _ => (by decide : 0 < 3),
    ((reduce_independent_of_split Unit (fun a b : Nat => a + b) 3
      (staticOwner 3 6) (fun _ => 0) [1, 2, 3, 4, 5, 6] 0).1 Nat.add_assoc Nat.add_comm
      (by decide) (staticOwner_valid 3 6 (by decide)) (fun _ _ _ => (by decide : 0 < 3))).1,
    ((reduce_independent_of_split Unit (fun a b : Nat => a + b) 3
      (staticOwner 3 6) (fun _ => 0) [1, 2, 3, 4, 5, 6] 0).1 Nat.add_assoc Nat.add_comm
      (by decide) (staticOwner_valid 3 6 (by decide))
      (fun _ _ _ => (by decide : 0 < 3))).2.2⟩

/-- C14: for every range and every `P`, the worker count `W = min P N`
satisfies `W ≤ N` and `W ≤ P`.  For `P ≥ 1` and a range that is not empty, no
positional access of `reduce` leaves its sequence, whatever the combine
does.  Every index taken into the partial of worker `t` belongs to a worker
`t < W` and is either the seed index `t` or an index of `[W, N)` handed to
`t`; and, under a work-sharing split and a total combine, the indices taken by
the workers `0, ..., W - 1` together are `0, ..., N - 1`, each exactly once.
For `N = 0` a read does leave its sequence: the team of the parallel region
has thread 0, which reads `thread_results[0]` of the empty buffer. -/
theorem reduce_in_bounds (ε : Type) (binary_op : α → α → Except ε α) (f : α → α → α)
    (P : Nat) (owner : Nat → Nat) (range : List α) (init : α) :
    min P range.length ≤ range.length ∧ min P range.length ≤ P ∧
    (1 ≤ P → 0 < range.length →
      ∀ i, (reduce P owner binary_op range init).out ≠ .error (.outOfBounds i)) ∧
    (∀ t, ∀ i ∈ workerLog t (reduce P owner binary_op range init).log,
      t < min P range.length ∧ i < range.length ∧
        (i = t ∨ (min P range.length ≤ i ∧ owner i = t))) ∧
    (ValidSplit owner (min P range.length) range.length →
      List.Perm
        ((List.range (min P range.length)).flatMap fun t =>
          workerLog t (reduce P owner (total ε f) range init).log)
        (List.range range.length)) ∧
    (reduce P owner binary_op [] init).out = .error (.outOfBounds 0) := by
  refine ⟨Nat.min_le_right _ _, Nat.min_le_left _ _, fun hP hN =>
    (reduce_sound binary_op 0 P owner range init (by omega)).inBounds,
    fun t i hi => ?_, fun h => ?_, ?_⟩
  · by_cases hW : 0 < min P range.length
    · have hmem : i ∈ (if t < min P range.length then
          t :: (iterations (min P range.length) range.length).filter fun i => owner i = t
        else []) := (reduce_sound binary_op t P owner range init hW).sofar.subset hi
      by_cases ht : t < min P range.length
      · rw [if_pos ht, List.mem_cons, List.mem_filter] at hmem
        have hle := Nat.min_le_right P range.length
        rcases hmem with hmem | ⟨hmem, ho⟩
        · exact ⟨ht, by omega, Or.inl hmem⟩
        · exact ⟨ht, (mem_iterations.1 hmem).2,
            Or.inr ⟨(mem_iterations.1 hmem).1, by simpa using ho⟩⟩
      · rw [if_neg ht] at hmem
        cases hmem
    · rw [reduce_of_min_eq_zero owner binary_op range init (by omega)] at hi
      cases hi
  · have hflat : ((List.range (min P range.length)).flatMap fun t =>
        workerLog t (reduce P owner (total ε f) range init).log) =
        blockOrder owner (min P range.length) range.length := by
      rw [blockOrder]
      apply List.flatMap_congr
      intro t ht
      rw [workerLog_reduce_total, if_pos (List.mem_range.1 ht)]
    rw [hflat]
    exact blockOrder_perm owner _ _ (Nat.min_le_right _ _) h
  · rw [reduce_of_min_eq_zero owner binary_op [] init (Nat.min_zero P)]

end Statements

end thrust.detail.device.omp
